import Mathlib

/-!
Verification of the mktorrent-rs core against its specification.

The definitions below are shallow embeddings of the Rust sources:
* `src/bencode.rs` — the bencode serializer,
* `src/torrent_meta.rs` — the v1-only (no padding) metadata builder and its
  `Bep3Hasher`,
* `src/torrent_meta_v2.rs` — the hybrid v1+v2 metadata builder: file
  descriptor construction, piece-size handling, job planning, the hash
  worker, Merkle-tree completion and the assembler.

Bytes are modelled as natural numbers, byte buffers as `List Nat`.
SHA-1/SHA-256 are treated abstractly: either the exact byte sequence fed to
a hash context is recorded (worker, Bep3 hasher), or the digest function is
an arbitrary parameter `hash : H → H → H` (Merkle completion).
Rust panics and `assert!` failures are modelled with `Except String`.
-/

namespace Mktorrent

/-! ## Bencode (src/bencode.rs) -/

/-- ASCII decimal digits of a natural number (byte values), embedding the
decimal rendering performed by Rust `format!` for unsigned values. -/
def natToAscii (n : Nat) : List Nat :=
  if h : n < 10 then [48 + n]
  else natToAscii (n / 10) ++ [48 + n % 10]
termination_by n
decreasing_by exact Nat.div_lt_self (by omega) (by omega)

/-- ASCII decimal digits of an integer, embedding Rust `format!("i\x7b\x7de", i)`
middle part for an `i64` value: a minus sign for negatives, then the digits. -/
def intToAscii (i : Int) : List Nat :=
  if i < 0 then 45 :: natToAscii i.natAbs else natToAscii i.natAbs

/-- ASCII bytes of a (7-bit) string literal. -/
def ascii (s : String) : List Nat :=
  s.data.map Char.toNat

/-- Lexicographic byte-order on byte strings: the `Ord` instance of Rust
`Vec<u8>` used by `BTreeMap` key ordering. -/
def lexLt : List Nat → List Nat → Bool
  | [], [] => false
  | [], _ :: _ => true
  | _ :: _, [] => false
  | a :: as, b :: bs => if a < b then true else if b < a then false else lexLt as bs

/-- The bencode value model of `src/bencode.rs`.  A `Map` carries its
entries in `BTreeMap` iteration order (ascending keys); the sortedness
invariant is stated separately where needed. -/
inductive BencodeValue where
  | Integer : Int → BencodeValue
  | Bytes : List Nat → BencodeValue
  | List : List BencodeValue → BencodeValue
  | Map : List (List Nat × BencodeValue) → BencodeValue
deriving Repr

/-- `BencodeValue::collect_bytes`: length prefix, colon, raw bytes. -/
def collectBytes (b : List Nat) : List Nat :=
  natToAscii b.length ++ [58] ++ b

/-- `BencodeValue::serialize` (via `collect_segments`): the byte sequence
appended for one value. -/
def serialize : BencodeValue → List Nat
  | .Integer i => [105] ++ intToAscii i ++ [101]
  | .Bytes b => collectBytes b
  | .List l => [108] ++ (l.attach.map (fun x => serialize x.1)).flatten ++ [101]
  | .Map m =>
      [100] ++ (m.attach.map (fun kv => collectBytes kv.1.1 ++ serialize kv.1.2)).flatten
        ++ [101]
termination_by v => sizeOf v
decreasing_by
· have h := List.sizeOf_lt_of_mem x.2
  simp only [BencodeValue.List.sizeOf_spec]
  omega
· have h := List.sizeOf_lt_of_mem kv.2
  obtain ⟨⟨k, v⟩, hk⟩ := kv
  simp only [Prod.mk.sizeOf_spec] at h
  simp only [BencodeValue.Map.sizeOf_spec]
  omega

/-- `BTreeMap::insert` on the sorted-association-list model: keeps keys in
ascending `lexLt` order, replaces the value on an equal key. -/
def bmapInsert {α : Type} (k : List Nat) (v : α) :
    List (List Nat × α) → List (List Nat × α)
  | [] => [(k, v)]
  | (k2, v2) :: rest =>
    if lexLt k k2 then (k, v) :: (k2, v2) :: rest
    else if lexLt k2 k then (k2, v2) :: bmapInsert k v rest
    else (k, v) :: rest

/-- Value of an ASCII digit string read back in base 10 (used to state that
`natToAscii` is the correct decimal rendering). -/
def digitsVal (l : List Nat) : Nat :=
  l.foldl (fun a d => a * 10 + (d - 48)) 0

/-! ## Bep3Hasher (src/torrent_meta.rs, lines 13-65) -/

/-- State of `Bep3Hasher`.  The SHA-1 context is modelled by the byte
sequence fed into it since the last reset; `hashes` records, for each
finalized piece, the exact bytes that piece's digest covers. -/
structure Bep3Hasher where
  piece_size : Nat
  hashes : List (List Nat)
  hash_context : List Nat
  hashed_size : Nat
deriving Repr, DecidableEq

/-- `Bep3Hasher::new`. -/
def Bep3Hasher.new (piece_size : Nat) : Bep3Hasher :=
  { piece_size, hashes := [], hash_context := [], hashed_size := 0 }

/-- The `loop` inside `Bep3Hasher::visit_file` (lines 35-54), on state
`(piece_left, remaining data, context, hashes)`.  Returns the final
`(piece_left, context, hashes)`.  `none` models the one state class in
which the Rust loop never terminates (`piece_size = 0` with data left and
nothing consumable). -/
def bep3Loop (ps : Nat) (pieceLeft : Nat) (data : List Nat) (ctx : List Nat)
    (hashes : List (List Nat)) : Option (Nat × List Nat × List (List Nat)) :=
  if pieceLeft - min pieceLeft data.length = 0 then
    if (data.drop (min pieceLeft data.length)).isEmpty then
      some (ps, [], hashes ++ [ctx ++ data.take (min pieceLeft data.length)])
    else if ps = 0 ∧ min pieceLeft data.length = 0 then none
    else bep3Loop ps ps (data.drop (min pieceLeft data.length)) []
      (hashes ++ [ctx ++ data.take (min pieceLeft data.length)])
  else
    if (data.drop (min pieceLeft data.length)).isEmpty then
      some (pieceLeft - min pieceLeft data.length,
        ctx ++ data.take (min pieceLeft data.length), hashes)
    else bep3Loop ps (pieceLeft - min pieceLeft data.length)
      (data.drop (min pieceLeft data.length))
      (ctx ++ data.take (min pieceLeft data.length)) hashes
termination_by 2 * data.length + (if pieceLeft = 0 then 1 else 0)
decreasing_by
· rename_i hfin hne hguard
  rw [List.isEmpty_eq_true, ← List.length_eq_zero, List.length_drop] at hne
  simp only [List.length_drop]
  rcases Nat.eq_zero_or_pos (min pieceLeft data.length) with h0 | h0
  · have hps : ¬ ps = 0 := fun hp => hguard ⟨hp, h0⟩
    have hpl : pieceLeft = 0 := by omega
    rw [if_neg hps, if_pos hpl]
    omega
  · have h1 : (if ps = 0 then 1 else 0) ≤ 1 := by split <;> omega
    omega
· rename_i hfin hne
  rw [List.isEmpty_eq_true, ← List.length_eq_zero, List.length_drop] at hne
  simp only [List.length_drop]
  omega

/-- `Bep3Hasher::visit_file` (lines 31-55). -/
def Bep3Hasher.visitFile (h : Bep3Hasher) (data : List Nat) : Option Bep3Hasher :=
  match bep3Loop h.piece_size (h.piece_size - h.hashed_size) data h.hash_context h.hashes with
  | none => none
  | some (pieceLeft, ctx, hashes) =>
      some { piece_size := h.piece_size, hashes, hash_context := ctx,
             hashed_size := h.piece_size - pieceLeft }

/-- `Bep3Hasher::visit_end` (lines 57-64). -/
def Bep3Hasher.visitEnd (h : Bep3Hasher) : Bep3Hasher :=
  if 0 < h.hashed_size then
    { piece_size := h.piece_size, hashes := h.hashes ++ [h.hash_context],
      hash_context := [], hashed_size := 0 }
  else h

/-- The piece-hashing phase of `TorrentMetadataV1::hash`
(src/torrent_meta.rs lines 198-211): `visit_file` over every file's bytes
in list order (an empty file feeds the empty byte string), then
`visit_end`.  Produces the per-piece covered byte sequences whose digests
are concatenated into `pieces`. -/
def bep3Pieces (ps : Nat) (files : List (List Nat)) : Option (List (List Nat)) :=
  match files.foldlM (fun h data => h.visitFile data) (Bep3Hasher.new ps) with
  | none => none
  | some h => some h.visitEnd.hashes

/-- Modelled from the claim: the continuous stream `files.flatten` cut into
pieces of `ps` bytes, the final piece possibly shorter, no empty final
piece. -/
def chunksOf (ps : Nat) (l : List Nat) : List (List Nat) :=
  if h : l = [] then []
  else if hp : ps = 0 then [l]
  else l.take ps :: chunksOf ps (l.drop ps)
termination_by l.length
decreasing_by
  have : l.length ≠ 0 := fun hl => h (List.eq_nil_of_length_eq_zero hl)
  simp only [List.length_drop]
  omega

/-- Statement abbreviation for the `Bep3Hasher` invariant: the whole
`ps`-sized pieces of the stream `s` (what has been finalized into
`hashes`). -/
def fullPieces (ps : Nat) (s : List Nat) : List (List Nat) :=
  chunksOf ps (s.take (ps * (s.length / ps)))

/-- Statement abbreviation for the `Bep3Hasher` invariant: the trailing
partial piece of the stream `s` (what sits in `hash_context`). -/
def tailPiece (ps : Nat) (s : List Nat) : List Nat :=
  s.drop (ps * (s.length / ps))

/-! ## Piece-size selection (C2) -/

/-- Piece-size selection in `TorrentMetadataV2::new`
(src/torrent_meta_v2.rs lines 136-147): a user-supplied size is validated
(power of two, between 16 KiB and 2 MiB) and used; otherwise 256 KiB.  The
total input size is computed by the caller but not consulted
(auto-selection is a `TODO` in the source), which is why the parameter
`totalBytes` is unused. -/
def pieceSizeSelectV2 (userPieceSize : Option Nat) (totalBytes : Nat) :
    Except String Nat :=
  match userPieceSize with
  | some x =>
      if Nat.land x (x - 1) ≠ 0 then .error "assert failed: power of two"
      else if x < 16 * 1024 then .error "assert failed: piece size minimum"
      else if 2 * 1024 * 1024 < x then .error "assert failed: piece size maximum"
      else .ok x
  | none => .ok (256 * 1024)

/-- Piece-size determination in `TorrentMetadataV1::hash`
(src/torrent_meta.rs lines 185-196): a pre-set size (`!= 0`) is kept;
otherwise 256 KiB below 50 GiB of total input, 1 MiB from 50 GiB up. -/
def pieceSizeSelectV1 (presetPieceSize totalSize : Nat) : Nat :=
  if presetPieceSize ≠ 0 then presetPieceSize
  else if totalSize < 50 * 1024 * 1024 * 1024 then 256 * 1024
  else 1024 * 1024

/-! ## File descriptors and `TorrentMetadataV2::new` (C1) -/

/-- One input file as handed over by the external walker: its path
components (first component = torrent root) and its byte length. -/
structure DataFile where
  path_components : List String
  len : Nat
deriving Repr, DecidableEq

/-- `FileMetadata` of src/torrent_meta_v2.rs (lines 57-74); the two output
buffers are represented by their byte lengths, their contents being zeroed
at construction. -/
structure FileMetadata where
  file : DataFile
  merkle_piece_count : Nat
  merkle_tree0_len : Nat
  hash_v1_piece_count : Nat
  hash_v1_len : Nat
  padding : Nat
  is_last_data_file : Bool
deriving Repr, DecidableEq

/-- `FileMetadata::new` (src/torrent_meta_v2.rs lines 76-108). -/
def FileMetadata.new (f : DataFile) (piece_size : Nat) : FileMetadata :=
  if f.len = 0 then
    { file := f, merkle_piece_count := 0, merkle_tree0_len := 0,
      hash_v1_piece_count := 0, hash_v1_len := 0, padding := 0,
      is_last_data_file := false }
  else
    { file := f,
      merkle_piece_count := (f.len - 1) / (16 * 1024) + 1,
      merkle_tree0_len := ((f.len - 1) / (16 * 1024) + 1) * 32,
      hash_v1_piece_count := (f.len - 1) / piece_size + 1,
      hash_v1_len := ((f.len - 1) / piece_size + 1) * 20,
      padding := if f.len % piece_size = 0 then 0
                 else piece_size - f.len % piece_size,
      is_last_data_file := false }

/-- Rust `a..=b` over unsigned integers: counts up from `a` to `b`,
empty whenever `a > b`. -/
def rangeInclusive (a b : Nat) : List Nat :=
  if a ≤ b then List.range' a (b - a + 1) else []

/-- The `piece_level` search loop in `TorrentMetadataV2::new` (lines
148-159): doubles `tmp` from 16 KiB until the piece size is met; `none`
models the `panic!("incorrect piece size")` on overshoot (and the
divergence at `tmp = 0`, unreachable from the entry value). -/
def pieceLevelLoop (pieceSize tmp level : Nat) : Option Nat :=
  if tmp = 0 then none
  else if tmp = pieceSize then some level
  else if tmp < pieceSize then pieceLevelLoop pieceSize (tmp * 2) (level + 1)
  else none
termination_by pieceSize - tmp
decreasing_by omega

/-- The state `TorrentMetadataV2::new` constructs (src/torrent_meta_v2.rs
lines 111-125; `private` is a Lean keyword, hence `private_flag`). -/
structure TorrentMetadataV2 where
  files : List FileMetadata
  total_bytes : Nat
  announces : List (List String)
  piece_size : Nat
  piece_factor : Nat
  piece_level : Nat
  private_flag : Bool
  nodes : List (String × Nat)
  webseeds : List String
deriving Repr, DecidableEq

/-- `TorrentMetadataV2::new` (src/torrent_meta_v2.rs lines 128-184).
`.error` models the asserts and panics.  The final marking pass iterates
the Rust range `ret.files.len() - 1..=0` — which is empty whenever the
list has more than one element — and for each visited index marks a
non-empty file as last data file and zeroes its padding.
(`2u64.checked_pow` cannot overflow here since the level search bounds
`piece_level` by 7, so it is embedded as plain exponentiation.) -/
def TorrentMetadataV2.new (announces : List (List String))
    (nodes : List (String × Nat)) (private_flag : Bool)
    (user_piece_size : Option Nat) (webseeds : List String)
    (walked_files : List DataFile) : Except String TorrentMetadataV2 :=
  match pieceSizeSelectV2 user_piece_size ((walked_files.map DataFile.len).sum) with
  | .error e => .error e
  | .ok piece_size =>
    if walked_files.isEmpty then .error "No file selected"
    else
      match pieceLevelLoop piece_size (16 * 1024) 0 with
      | none => .error "incorrect piece size"
      | some piece_level =>
        if announces.isEmpty ∧ nodes.isEmpty then
          .error "assert failed: announces or nodes"
        else
          let files0 := walked_files.map (fun e => FileMetadata.new e piece_size)
          let files1 := (rangeInclusive (files0.length - 1) 0).foldl
            (fun fs i => fs.mapIdx (fun j f =>
              if j = i ∧ 0 < f.file.len then
                { f with is_last_data_file := true, padding := 0 }
              else f)) files0
          .ok { files := files1,
                total_bytes := (walked_files.map DataFile.len).sum,
                announces, piece_size,
                piece_factor := 2 ^ piece_level, piece_level,
                private_flag, nodes, webseeds }

/-! ## Tracker keys of the output dictionary (C3) -/

/-- The tier list-of-lists built for `announce-list`. -/
def tierList (announces : List (List String)) : BencodeValue :=
  .List (announces.map (fun tier => .List (tier.map (fun a => .Bytes (ascii a)))))

/-- The tracker section of the output dictionary, shared verbatim by both
`hash` functions (src/torrent_meta_v2.rs lines 606-630, src/torrent_meta.rs
lines 259-283), acting on the dictionary built so far: inserts `announce`
when `announces` is non-empty, then evaluates
`announces.len() > 1 || announces[0].len() > 1` — whose second disjunct
indexes `announces[0]` unguarded (`.error` models that panic) — and on
`true` inserts `announce-list`. -/
def assembleAnnounce (announces : List (List String))
    (ret : List (List Nat × BencodeValue)) :
    Except String (List (List Nat × BencodeValue)) :=
  let step1 : Except String (List (List Nat × BencodeValue)) :=
    if announces.isEmpty then .ok ret
    else
      match announces with
      | [] => .error "index out of bounds: announces[0]"
      | tier0 :: _ =>
        match tier0 with
        | [] => .error "index out of bounds: announces[0][0]"
        | url0 :: _ => .ok (bmapInsert (ascii "announce") (.Bytes (ascii url0)) ret)
  match step1 with
  | .error e => .error e
  | .ok ret1 =>
    if 1 < announces.length then
      .ok (bmapInsert (ascii "announce-list") (tierList announces) ret1)
    else
      match announces with
      | [] => .error "index out of bounds: announces[0]"
      | tier0 :: _ =>
        if 1 < tier0.length then
          .ok (bmapInsert (ascii "announce-list") (tierList announces) ret1)
        else .ok ret1

/-! ## Job planner (C4, C7; src/torrent_meta_v2.rs lines 196-259) -/

/-- One planned `HashJob` (lines 241-252).  The two `split_at_mut` slice
views are represented by their start offsets (in bytes) inside the owning
file's `hash_v1` and `merkle_leaves` buffers; the slice lengths are fixed
by the piece counts (`v1_pieces * 20` and `v2_pieces * 32`). -/
structure PlanJob where
  offset : Nat
  data_len : Nat
  v1_pieces : Nat
  v1_piece_size : Nat
  v1_slice_start : Nat
  v1_last_hash_zero_fill : Bool
  v2_pieces : Nat
  v2_slice_start : Nat
deriving Repr, DecidableEq

/-- The `task_pieces` vector (lines 205-211): the first
`v1count % numTasks` jobs carry `v1count / numTasks + 1` v1 pieces, the
remaining jobs carry `v1count / numTasks`. -/
def taskPieces (v1count numTasks : Nat) : List Nat :=
  List.replicate (v1count % numTasks) (v1count / numTasks + 1) ++
    List.replicate (numTasks - v1count % numTasks) (v1count / numTasks)

/-- The per-file planning loop (lines 213-258) over the enumerated
`task_pieces`, carrying the running piece offset, the two buffer cursors
and the number of merkle leaves still unassigned.  `none` models the
`panic!("left_merkle_piece==0 ...")`. -/
def planLoop (ps factor flen : Nat) (isLast : Bool) (lastIdx : Nat) :
    List (Nat × Nat) → Nat → Nat → Nat → Nat → Option (List PlanJob)
  | [], _, _, _, _ => some []
  | (idx, thisV1) :: rest, pieceOffset, v1pos, v2pos, leftMerkle =>
    if leftMerkle = 0 then none
    else
      let thisV2 := min (thisV1 * factor) leftMerkle
      let dataLen := min ((pieceOffset + thisV1) * ps) flen - pieceOffset * ps
      let job : PlanJob :=
        { offset := pieceOffset * ps, data_len := dataLen,
          v1_pieces := thisV1, v1_piece_size := ps,
          v1_slice_start := v1pos,
          v1_last_hash_zero_fill := !(decide (idx = lastIdx) && isLast),
          v2_pieces := thisV2, v2_slice_start := v2pos }
      match planLoop ps factor flen isLast lastIdx rest (pieceOffset + thisV1)
          (v1pos + thisV1 * 20) (v2pos + thisV2 * 32) (leftMerkle - thisV2) with
      | none => none
      | some js => some (job :: js)

/-- Planning of the jobs of one file with positive length `flen`
(lines 199-259); `isLast` is the file's `is_last_data_file` flag.  The
piece counts repeat the `FileMetadata` fields (`hash_v1_piece_count`,
`merkle_piece_count`) for a file of this length. -/
def planFile (ps factor flen : Nat) (isLast : Bool) : Option (List PlanJob) :=
  let numTasks := (flen - 1) / (1024 * 1024 * 1024) + 1
  let v1count := (flen - 1) / ps + 1
  let merkleCount := (flen - 1) / (16 * 1024) + 1
  let tp := taskPieces v1count numTasks
  planLoop ps factor flen isLast (tp.length - 1) tp.enum 0 0 0 merkleCount

/-- Consecutiveness check for a list of `(start, length)` intervals:
returns the end position when each interval begins exactly where the
previous one ended.  Used to state that the planned slices tile the hash
buffers. -/
def consecFrom (pos : Nat) : List (Nat × Nat) → Option Nat
  | [] => some pos
  | (s, l) :: rest => if s = pos then consecFrom (pos + l) rest else none

/-! ## Hash worker (C4; src/torrent_meta_v2.rs lines 303-408) -/

/-- The worker chunk loop (lines 327-374) over the mmapped bytes `data`.
Hash contexts are modelled by the byte sequence fed since the last reset;
the two accumulators record, per finalized digest, the bytes it covers
(the source writes digest number `n` at slot `n` of its slice, so slots
are consecutive).  State and result:
`(cursor, v1ctx, v2ctx, v1acc, v2acc, finishedV1, finishedV2)`. -/
def workerLoop (pf : Nat) (data : List Nat) (dataRbound : Nat) :
    Nat → List Nat → List Nat → List (List Nat) → List (List Nat) → Nat → Nat →
    Nat × List Nat × List Nat × List (List Nat) × List (List Nat) × Nat × Nat
  | cursor, v1ctx, v2ctx, v1acc, v2acc, f1, f2 =>
    if hc : cursor < dataRbound then
      if dataRbound < cursor + 16384 then
        -- short final chunk (`bytes = data_rbound - cursor`): no digest done
        workerLoop pf data dataRbound (cursor + (dataRbound - cursor))
          (v1ctx ++ (data.drop cursor).take (dataRbound - cursor))
          (v2ctx ++ (data.drop cursor).take (dataRbound - cursor))
          v1acc v2acc f1 f2
      else
        -- full 16 KiB chunk: a v2 piece done; a v1 piece done every `pf` chunks
        if (f2 + 1) % pf = 0 then
          workerLoop pf data dataRbound (cursor + 16384) [] []
            (v1acc ++ [v1ctx ++ (data.drop cursor).take 16384])
            (v2acc ++ [v2ctx ++ (data.drop cursor).take 16384]) (f1 + 1) (f2 + 1)
        else
          workerLoop pf data dataRbound (cursor + 16384)
            (v1ctx ++ (data.drop cursor).take 16384) []
            v1acc (v2acc ++ [v2ctx ++ (data.drop cursor).take 16384]) f1 (f2 + 1)
    else (cursor, v1ctx, v2ctx, v1acc, v2acc, f1, f2)
termination_by cursor => dataRbound - cursor
decreasing_by
all_goals omega

/-- The whole worker body for one job (lines 303-408) after the mmap: the
chunk loop, the short-tail v2 finalize (lines 377-386), and the final v1
finalize with optional zero fill (lines 388-405).  Returns the lists of
byte sequences covered by the digests written to the job's v1 and v2
slices, in slot order. -/
def workerRun (pf : Nat) (data : List Nat) (job : PlanJob) :
    List (List Nat) × List (List Nat) :=
  let hashRbound := job.offset + job.v1_pieces * job.v1_piece_size
  let dataRbound := job.offset + job.data_len
  let st := workerLoop pf data dataRbound job.offset [] [] [] [] 0 0
  let cursor := st.1
  let v1ctx := st.2.1
  let v2ctx := st.2.2.1
  let v1acc := st.2.2.2.1
  let v2acc := st.2.2.2.2.1
  let v2acc1 := if cursor % 16384 ≠ 0 then v2acc ++ [v2ctx] else v2acc
  let v1acc1 :=
    if cursor ≠ hashRbound then
      v1acc ++ [if job.v1_last_hash_zero_fill then
          v1ctx ++ List.replicate (hashRbound - cursor) 0
        else v1ctx]
    else v1acc
  (v1acc1, v2acc1)

/-- The slice of `data` from byte `a` (inclusive) to `b` (exclusive):
`data[a..b]` of the source. -/
def dslice (data : List Nat) (a b : Nat) : List Nat :=
  (data.drop a).take (b - a)

/-! ## Merkle completion (C5; src/torrent_meta_v2.rs lines 423-461) -/

/-- The zero-hash filler table `filler_sha256` (lines 425-432), abstracted
over the digest function: level 0 is `z0` (32 zero bytes in the source),
level `i + 1` hashes two copies of level `i`. -/
def zeroFiller {H : Type} (hash : H → H → H) (z0 : H) : Nat → H
  | 0 => z0
  | i + 1 => hash (zeroFiller hash z0 i) (zeroFiller hash z0 i)

/-- The complete-pair loop (lines 443-447): hash adjacent pairs, ignoring
a lone trailing element. -/
def hashPairs {H : Type} (hash : H → H → H) : List H → List H
  | a :: b :: rest => hash a b :: hashPairs hash rest
  | _ => []

/-- One completion step for layer `src` at `level` (lines 442-453): the
paired hashes, plus — when the layer has more than one hash and an odd
hash count — one extra hash pairing the lone final hash with the level's
zero filler. -/
def merkleNextLayer {H : Type} (hash : H → H → H) (filler : H) (src : List H) :
    List H :=
  hashPairs hash src ++
    (if 1 < src.length ∧ src.length % 2 = 1 then
      src.getLast?.elim [] (fun a => [hash a filler])
    else [])

/-- The pieces-root the completion loop (lines 434-459) produces from a
leaf layer: iterate `merkleNextLayer` from level 0 until a single hash
remains (the final 32-byte layer; a one-leaf file skips the loop and its
root is the leaf itself).  `none` on an empty layer — files of length 0
never reach the loop. -/
def merkleRootCode {H : Type} (hash : H → H → H) (z0 : H) :
    Nat → List H → Option H
  | _, [] => none
  | _, [a] => some a
  | level, a :: b :: rest =>
    merkleRootCode hash z0 (level + 1)
      (merkleNextLayer hash (zeroFiller hash z0 level) (a :: b :: rest))
termination_by _ src => src.length
decreasing_by
  have key : ∀ (n : Nat) (l : List H), l.length ≤ n →
      2 * (hashPairs hash l).length ≤ l.length := by
    intro n
    induction n with
    | zero =>
      intro l hl
      rcases l with - | ⟨a1, t⟩
      · simp [hashPairs]
      · simp at hl
    | succ n ih =>
      intro l hl
      rcases l with - | ⟨a1, - | ⟨b1, rest1⟩⟩
      · simp [hashPairs]
      · simp [hashPairs]
      · have hr := ih rest1 (by simp only [List.length_cons] at hl; omega)
        simp only [hashPairs, List.length_cons]
        omega
  have h1 : 2 * (hashPairs hash (a :: b :: rest)).length ≤ (a :: b :: rest).length :=
    key (a :: b :: rest).length _ le_rfl
  have h2 :
      (if 1 < (a :: b :: rest).length ∧ (a :: b :: rest).length % 2 = 1 then
        (a :: b :: rest).getLast?.elim []
          (fun x => [hash x (zeroFiller hash z0 level)])
      else []).length ≤ (a :: b :: rest).length % 2 := by
    split
    · rename_i hcond
      cases hg : (a :: b :: rest).getLast? with
      | none => simp
      | some x =>
        have hodd := hcond.2
        simp only [List.length_cons] at hodd ⊢
        simp [hodd]
    · simp
  simp only [merkleNextLayer, List.length_append, List.length_cons] at *
  omega

/-- Modelled from the claim: the Merkle root of a perfect (power-of-two)
layer, repeatedly hashing adjacent pairs until one hash remains. -/
def merkleRootPerfect {H : Type} (hash : H → H → H) : List H → Option H
  | [] => none
  | [a] => some a
  | a :: b :: rest => merkleRootPerfect hash (hashPairs hash (a :: b :: rest))
termination_by src => src.length
decreasing_by
  have key : ∀ (n : Nat) (l : List H), l.length ≤ n →
      2 * (hashPairs hash l).length ≤ l.length := by
    intro n
    induction n with
    | zero =>
      intro l hl
      rcases l with - | ⟨a1, t⟩
      · simp [hashPairs]
      · simp at hl
    | succ n ih =>
      intro l hl
      rcases l with - | ⟨a1, - | ⟨b1, rest1⟩⟩
      · simp [hashPairs]
      · simp [hashPairs]
      · have hr := ih rest1 (by simp only [List.length_cons] at hl; omega)
        simp only [hashPairs, List.length_cons]
        omega
  have h1 : 2 * (hashPairs hash (a :: b :: rest)).length ≤ (a :: b :: rest).length :=
    key (a :: b :: rest).length _ le_rfl
  simp only [List.length_cons] at *
  omega

/-- Modelled from the claim: pad the leaf layer to the next power of two
with level-0 zero fillers, then take the perfect Merkle root. -/
def merkleRootSpec {H : Type} (hash : H → H → H) (z0 : H) (leaves : List H) :
    Option H :=
  merkleRootPerfect hash
    (leaves ++ List.replicate (2 ^ Nat.clog 2 leaves.length - leaves.length) z0)

/-! ## `piece layers` assembly (C6; src/torrent_meta_v2.rs lines 586-602) -/

/-- The fields of one file the `piece layers` assembly reads after
hashing: its byte length and its completed `merkle_tree` (list of layers,
each a byte list; the last layer is the 32-byte pieces-root). -/
structure V2FileHash where
  len : Nat
  merkle_tree : List (List Nat)
deriving Repr, DecidableEq

/-- The `piece layers` assembly loop (lines 587-598): for every file
longer than one v1 piece, insert
`pieces root (tree.last) ↦ Bytes (tree[piece_level])` into a `BTreeMap`;
other files contribute nothing.  `.error` models the two `unwrap`s and the
two `assert!`s.  (`pieceLayersStep` is the loop body, `assemblePieceLayers`
the whole loop.) -/
def pieceLayersStep (ps pieceLevel : Nat)
    (acc : List (List Nat × BencodeValue)) (f : V2FileHash) :
    Except String (List (List Nat × BencodeValue)) :=
  if f.len ≤ ps then pure acc
  else
    match f.merkle_tree.getLast? with
    | none => Except.error "unwrap failed: merkle_tree.last"
    | some key =>
      match f.merkle_tree[pieceLevel]? with
      | none => Except.error "unwrap failed: merkle_tree piece_level"
      | some val =>
        if key.length ≠ 32 then Except.error "assert failed: key length 32"
        else if ¬(val.length % 32 = 0 ∧ 32 < val.length) then
          Except.error "assert failed: value length"
        else pure (bmapInsert key (BencodeValue.Bytes val) acc)

/-- The whole `piece layers` loop (lines 587-598) over all files. -/
def assemblePieceLayers (ps pieceLevel : Nat) (files : List V2FileHash) :
    Except String (List (List Nat × BencodeValue)) :=
  files.foldlM (pieceLayersStep ps pieceLevel) []

/-! ## v1 `files` list assembly (C8; src/torrent_meta_v2.rs lines 498-539) -/

/-- The per-file fields the multi-file `files` assembly reads. -/
structure V1FileEntry where
  path_components : List String
  len : Nat
  padding : Nat
deriving Repr, DecidableEq

/-- The multi-file `files` list (lines 500-538): per file, a dictionary of
`length` and `path` (the components after the root), followed — when
`padding > 0` — by a BEP-47 padding dictionary with `attr = "p"`,
`length = padding` and `path = [".pad", decimal padding]`.  `.error`
models the `assert_eq!(name, path_components[0])` panic and the
out-of-bounds read of `path_components[0]` on an empty component list.
(File lengths are cast `u64 as i64` in the source; lengths below `2^63`
are embedded exactly.)  `filesListStep` is the loop body,
`assembleFilesList` the whole loop. -/
def filesListStep (name : String) (acc : List BencodeValue) (f : V1FileEntry) :
    Except String (List BencodeValue) :=
  match f.path_components with
  | [] => Except.error "index out of bounds: path_components[0]"
  | c0 :: restComps =>
    if c0 ≠ name then Except.error "assert_eq failed: name"
    else
      let fileDict := bmapInsert (ascii "path")
          (BencodeValue.List (restComps.map (fun c => BencodeValue.Bytes (ascii c))))
          (bmapInsert (ascii "length") (BencodeValue.Integer (f.len : Int)) [])
      if 0 < f.padding then
        let padDict := bmapInsert (ascii "path")
            (BencodeValue.List [BencodeValue.Bytes (ascii ".pad"),
              BencodeValue.Bytes (natToAscii f.padding)])
            (bmapInsert (ascii "length") (BencodeValue.Integer (f.padding : Int))
              (bmapInsert (ascii "attr") (BencodeValue.Bytes (ascii "p")) []))
        pure (acc ++ [BencodeValue.Map fileDict, BencodeValue.Map padDict])
      else pure (acc ++ [BencodeValue.Map fileDict])

/-- The whole multi-file `files` loop (lines 500-538) over all files. -/
def assembleFilesList (name : String) (files : List V1FileEntry) :
    Except String (List BencodeValue) :=
  files.foldlM (filesListStep name) []

/-- Modelled from the claim: one dictionary per input file, in order, with
keys `length` and `path` (components without the root), each file with
positive padding immediately followed by its BEP-47 padding dictionary. -/
def filesListSpec (files : List V1FileEntry) : List BencodeValue :=
  (files.map (fun f =>
    [BencodeValue.Map
        [(ascii "length", BencodeValue.Integer (f.len : Int)),
         (ascii "path", BencodeValue.List ((f.path_components.drop 1).map
            (fun c => BencodeValue.Bytes (ascii c))))]] ++
      (if 0 < f.padding then
        [BencodeValue.Map
          [(ascii "attr", BencodeValue.Bytes (ascii "p")),
           (ascii "length", BencodeValue.Integer (f.padding : Int)),
           (ascii "path", BencodeValue.List
              [BencodeValue.Bytes (ascii ".pad"),
               BencodeValue.Bytes (natToAscii f.padding)])]]
      else []))).flatten

end Mktorrent

namespace Mktorrent

theorem natToAscii_ne_nil (n : Nat) : natToAscii n ≠ [] := by
  rw [natToAscii]
  split
  · simp
  · simp

theorem natToAscii_digits (n : Nat) : ∀ d ∈ natToAscii n, 48 ≤ d ∧ d ≤ 57 := by
  induction n using Nat.strong_induction_on with
  | _ n ih =>
    rw [natToAscii]
    split
    · intro d hd
      simp only [List.mem_singleton] at hd
      omega
    · intro d hd
      rcases List.mem_append.1 hd with h | h
      · exact ih (n / 10) (Nat.div_lt_self (by omega) (by omega)) d h
      · simp only [List.mem_singleton] at h
        have := Nat.mod_lt n (show 0 < 10 by omega)
        omega

theorem natToAscii_head_ne_zero (n : Nat) (hn : 1 ≤ n) :
    (natToAscii n).head? ≠ some 48 := by
  induction n using Nat.strong_induction_on with
  | _ n ih =>
    rw [natToAscii]
    split
    · simp only [List.head?_cons]
      intro h
      have : 48 + n = 48 := by simpa using h
      omega
    · rw [List.head?_append_of_ne_nil _ (natToAscii_ne_nil _)]
      exact ih (n / 10) (Nat.div_lt_self (by omega) (by omega)) (by omega)

theorem digitsVal_natToAscii (n : Nat) : digitsVal (natToAscii n) = n := by
  induction n using Nat.strong_induction_on with
  | _ n ih =>
    rw [natToAscii]
    split
    · simp [digitsVal]
    · have h1 : digitsVal (natToAscii (n / 10)) = n / 10 :=
        ih (n / 10) (Nat.div_lt_self (by omega) (by omega))
      simp only [digitsVal, List.foldl_append, List.foldl_cons, List.foldl_nil] at h1 ⊢
      rw [h1]
      omega

theorem lexLt_trans {a b c : List Nat} (hab : lexLt a b = true)
    (hbc : lexLt b c = true) : lexLt a c = true := by
  induction a generalizing b c with
  | nil =>
    cases c with
    | nil =>
      cases b with
      | nil => exact hab
      | cons y ys => simp [lexLt] at hbc
    | cons z zs => simp [lexLt]
  | cons x xs ih =>
    cases b with
    | nil => simp [lexLt] at hab
    | cons y ys =>
      cases c with
      | nil => simp [lexLt] at hbc
      | cons z zs =>
        simp only [lexLt] at hab hbc ⊢
        by_cases hxy : x < y
        · by_cases hyz : y < z
          · have : x < z := by omega
            simp [this]
          · by_cases hzy : z < y
            · simp [hyz, hzy] at hbc
            · have hyz2 : y = z := by omega
              subst hyz2
              simp [hxy]
        · by_cases hyx : y < x
          · simp [hxy, hyx] at hab
          · have hxy2 : x = y := by omega
            subst hxy2
            simp only [hxy, if_false, Nat.lt_irrefl] at hab ⊢
            by_cases hyz : x < z
            · simp [hyz]
            · by_cases hzy : z < x
              · simp [hyz, hzy] at hbc
              · simp only [hyz, hzy, if_false] at hbc ⊢
                exact ih hab hbc

theorem lexLt_eq_of_not_lt {a b : List Nat} (hab : lexLt a b = false)
    (hba : lexLt b a = false) : a = b := by
  induction a generalizing b with
  | nil =>
    cases b with
    | nil => rfl
    | cons y ys => simp [lexLt] at hab
  | cons x xs ih =>
    cases b with
    | nil => simp [lexLt] at hba
    | cons y ys =>
      simp only [lexLt] at hab hba
      by_cases hxy : x < y
      · simp [hxy] at hab
      · by_cases hyx : y < x
        · simp [hxy, hyx] at hba
        · have hxy2 : x = y := by omega
          subst hxy2
          simp only [Nat.lt_irrefl, if_false] at hab hba
          rw [ih hab hba]

theorem mem_bmapInsert_or {α : Type} {k : List Nat} {v : α}
    {x : List Nat × α} : ∀ {m : List (List Nat × α)},
    x ∈ bmapInsert k v m → x = (k, v) ∨ x ∈ m := by
  intro m
  induction m with
  | nil => simp [bmapInsert]
  | cons p rest ih =>
    obtain ⟨k2, v2⟩ := p
    simp only [bmapInsert]
    split
    · intro h
      simp only [List.mem_cons] at h ⊢
      tauto
    · split
      · intro h
        simp only [List.mem_cons] at h ⊢
        rcases h with h | h
        · tauto
        · rcases ih h with h | h <;> tauto
      · intro h
        simp only [List.mem_cons] at h ⊢
        tauto

theorem bmapInsert_pairwise {α : Type} (k : List Nat) (v : α) :
    ∀ (m : List (List Nat × α)),
    m.Pairwise (fun p q => lexLt p.1 q.1 = true) →
    (bmapInsert k v m).Pairwise (fun p q => lexLt p.1 q.1 = true) := by
  intro m
  induction m with
  | nil => simp [bmapInsert]
  | cons p rest ih =>
    obtain ⟨k2, v2⟩ := p
    intro hm
    rw [List.pairwise_cons] at hm
    obtain ⟨hhead, hrest⟩ := hm
    simp only [bmapInsert]
    split
    · rename_i hlt
      rw [List.pairwise_cons]
      refine ⟨?_, by rw [List.pairwise_cons]; exact ⟨hhead, hrest⟩⟩
      intro q hq
      simp only [List.mem_cons] at hq
      rcases hq with rfl | hq
      · exact hlt
      · exact lexLt_trans hlt (hhead q hq)
    · split
      · rename_i hnlt hgt
        rw [List.pairwise_cons]
        refine ⟨?_, ih hrest⟩
        intro q hq
        rcases mem_bmapInsert_or hq with rfl | hq
        · exact hgt
        · exact hhead q hq
      · rename_i hnlt hngt
        have : k = k2 :=
          lexLt_eq_of_not_lt (Bool.of_not_eq_true hnlt) (Bool.of_not_eq_true hngt)
        subst this
        rw [List.pairwise_cons]
        exact ⟨hhead, hrest⟩

theorem serialize_list_eq (l : List BencodeValue) :
    serialize (.List l) = [108] ++ (l.map serialize).flatten ++ [101] := by
  rw [serialize]
  congr 2
  simp [List.attach_map_coe]

theorem serialize_map_eq (m : List (List Nat × BencodeValue)) :
    serialize (.Map m) =
      [100] ++ (m.map (fun kv => collectBytes kv.1 ++ serialize kv.2)).flatten
        ++ [101] := by
  rw [serialize]
  congr 2
  rw [← List.attach_map_coe m (fun kv => collectBytes kv.1 ++ serialize kv.2)]

theorem intToAscii_head_neg_iff (i : Int) :
    (intToAscii i).head? = some 45 ↔ i < 0 := by
  constructor
  · intro h
    by_contra hneg
    rw [intToAscii, if_neg hneg] at h
    have hd := natToAscii_digits i.natAbs 45 (List.mem_of_mem_head? h)
    omega
  · intro h
    rw [intToAscii, if_pos h]
    rfl

/-- C9: `serialize` is total by construction (it is a Lean function); the
reference vectors hold, `Integer` renders as `i`, the ASCII decimal (no
leading zeros, minus sign exactly for negatives, value-correct digits,
`0` and `-0` both as `i0e`), then `e`; `Bytes` as decimal length, colon,
raw bytes; `List` as `l`, children in order, `e`; `Map` as `d`, the pairs
in iteration order — strictly ascending keys, the invariant `bmapInsert`
(the `BTreeMap` insert) preserves — then `e`. -/
theorem c9_bencode_serialize_spec (i : Int) (b : List Nat)
    (l : List BencodeValue) (m : List (List Nat × BencodeValue))
    (k : List Nat) (v : BencodeValue)
    (hm : m.Pairwise (fun p q => lexLt p.1 q.1 = true)) :
    (serialize (.Integer 0) = ascii "i0e" ∧
     serialize (.Integer (-0)) = ascii "i0e" ∧
     serialize (.Integer (-42)) = ascii "i-42e" ∧
     serialize (.Bytes []) = ascii "0:" ∧
     serialize (.Bytes (ascii "ascii")) = ascii "5:ascii" ∧
     serialize (.List []) = ascii "le" ∧
     serialize (.Map []) = ascii "de" ∧
     serialize (.Map (bmapInsert (ascii "bar") (.Bytes (ascii "foo"))
        (bmapInsert (ascii "foo") (.Integer 42) []))) = ascii "d3:bar3:foo3:fooi42ee") ∧
    (serialize (.Integer i) = [105] ++ intToAscii i ++ [101] ∧
     ((intToAscii i).head? = some 45 ↔ i < 0) ∧
     digitsVal (if i < 0 then (intToAscii i).tail else intToAscii i) = i.natAbs ∧
     (i ≠ 0 → (if i < 0 then (intToAscii i).tail else intToAscii i).head? ≠ some 48)) ∧
    (serialize (.Bytes b) = natToAscii b.length ++ [58] ++ b) ∧
    (serialize (.List l) = [108] ++ (l.map serialize).flatten ++ [101]) ∧
    (serialize (.Map m) =
        [100] ++ (m.map (fun kv => collectBytes kv.1 ++ serialize kv.2)).flatten
          ++ [101] ∧
     (bmapInsert k v m).Pairwise (fun p q => lexLt p.1 q.1 = true)) := by
  refine ⟨?_, ⟨?_, ?_, ?_, ?_⟩, ?_, ?_, ?_, ?_⟩
  · refine ⟨?_, ?_, ?_, ?_, ?_, ?_, ?_, ?_⟩
    · rw [serialize]
      simp [intToAscii, natToAscii, ascii]
    · rw [serialize]
      simp [intToAscii, natToAscii, ascii]
    · rw [serialize]
      norm_num [intToAscii, ascii]
      simp [natToAscii, ascii]
    · rw [serialize]
      simp [collectBytes, natToAscii, ascii]
    · rw [serialize]
      simp [collectBytes, natToAscii, ascii]
    · rw [serialize]
      simp [ascii]
    · rw [serialize_map_eq]
      simp [ascii]
    · rw [show bmapInsert (ascii "bar") (BencodeValue.Bytes (ascii "foo"))
            (bmapInsert (ascii "foo") (BencodeValue.Integer 42) []) =
          [(ascii "bar", BencodeValue.Bytes (ascii "foo")),
           (ascii "foo", BencodeValue.Integer 42)] from rfl]
      rw [serialize_map_eq]
      simp only [List.map_cons, List.map_nil, List.flatten]
      rw [serialize, serialize]
      simp [collectBytes, intToAscii, natToAscii, ascii]
  · rw [serialize]
  · exact intToAscii_head_neg_iff i
  · split
    · rename_i hneg
      rw [intToAscii, if_pos hneg]
      exact digitsVal_natToAscii _
    · rename_i hneg
      rw [intToAscii, if_neg hneg]
      exact digitsVal_natToAscii _
  · intro hne
    have habs : 1 ≤ i.natAbs := by omega
    split
    · rename_i hneg
      rw [intToAscii, if_pos hneg]
      exact natToAscii_head_ne_zero _ habs
    · rename_i hneg
      rw [intToAscii, if_neg hneg]
      exact natToAscii_head_ne_zero _ habs
  · rw [serialize, collectBytes]
  · exact serialize_list_eq l
  · exact serialize_map_eq m
  · exact bmapInsert_pairwise k v m hm

/-- Witness for C9 at concrete inputs. -/
theorem c9_bencode_serialize_witness :
    serialize (.Integer (-42)) = ascii "i-42e" ∧
    (bmapInsert (ascii "a") (BencodeValue.Integer 7) []).Pairwise
      (fun p q => lexLt p.1 q.1 = true) := by
  have h := c9_bencode_serialize_spec (-42) [] [] [] (ascii "a")
    (BencodeValue.Integer 7) (by simp)
  exact ⟨h.1.2.2.1, h.2.2.2.2.2⟩

/-- C2 counterexample: with no caller-supplied piece size and a total
input size of exactly 50 GiB, the hybrid core's construction
(`TorrentMetadataV2::new`) selects 256 KiB, not the 1 MiB the claim
requires for `T ≥ 50 GiB` (auto-selection is an unimplemented TODO
there). -/
theorem c2_piece_size_policy_counterexample :
    pieceSizeSelectV2 none (50 * 1024 * 1024 * 1024) = .ok (256 * 1024) ∧
    (256 * 1024 : Nat) ≠ 1024 * 1024 := by
  exact ⟨rfl, by decide⟩

/-- C2 amended: a caller-supplied piece size that is a power of two in
[16 KiB, 2 MiB] is used unchanged by both cores; with no supplied size the
hybrid core (`torrent_meta_v2.rs`) always selects 256 KiB regardless of
the total size, while the v1-only core (`torrent_meta.rs`) selects by
total input size: 256 KiB below 50 GiB, 1 MiB from 50 GiB up. -/
theorem c2_piece_size_policy_amended (x total k : Nat) (hx : x = 2 ^ k)
    (hmin : 16 * 1024 ≤ x) (hmax : x ≤ 2 * 1024 * 1024) :
    pieceSizeSelectV2 (some x) total = .ok x ∧
    pieceSizeSelectV2 none total = .ok (256 * 1024) ∧
    pieceSizeSelectV1 x total = x ∧
    pieceSizeSelectV1 0 total =
      (if total < 50 * 1024 * 1024 * 1024 then 256 * 1024 else 1024 * 1024) := by
  have hland : Nat.land x (x - 1) = 0 := by
    subst hx
    apply Nat.eq_of_testBit_eq
    intro j
    rw [Nat.zero_testBit]
    show (2 ^ k &&& (2 ^ k - 1)).testBit j = false
    rw [Nat.testBit_and, Nat.testBit_two_pow, Nat.testBit_two_pow_sub_one]
    by_cases hkj : k = j
    · subst hkj
      simp
    · simp [hkj]
  refine ⟨?_, rfl, ?_, ?_⟩
  · rw [pieceSizeSelectV2]
    rw [if_neg (by omega : ¬ Nat.land x (x - 1) ≠ 0)]
    rw [if_neg (by omega), if_neg (by omega)]
  · rw [pieceSizeSelectV1, if_pos (by omega)]
  · rw [pieceSizeSelectV1, if_neg (by omega)]

/-- Witness for C2's amended statement at piece size 16 KiB. -/
theorem c2_piece_size_policy_witness :
    pieceSizeSelectV2 (some 16384) 0 = .ok 16384 ∧
    pieceSizeSelectV2 none 0 = .ok (256 * 1024) ∧
    pieceSizeSelectV1 16384 0 = 16384 ∧
    pieceSizeSelectV1 0 0 =
      (if (0 : Nat) < 50 * 1024 * 1024 * 1024 then 256 * 1024 else 1024 * 1024) :=
  c2_piece_size_policy_amended 16384 0 14 (by norm_num) (by norm_num) (by norm_num)

/-- C3: with an empty `announces` list (a configuration construction
permits whenever `nodes` is non-empty), the tracker-section assembly
shared by both `hash` functions evaluates `announces[0]` in the
`announce-list` condition and panics, instead of completing with neither
an `announce` nor an `announce-list` key as the claim states. -/
theorem c3_empty_announces_panic :
    assembleAnnounce [] [] = .error "index out of bounds: announces[0]" := rfl

theorem lexLt_irrefl (a : List Nat) : lexLt a a = false := by
  induction a with
  | nil => rfl
  | cons x xs ih => simp [lexLt, ih]

theorem mem_bmapInsert_iff {α : Type} {k : List Nat} {v : α} {x : List Nat × α} :
    ∀ {m : List (List Nat × α)},
    m.Pairwise (fun p q => lexLt p.1 q.1 = true) →
    (x ∈ bmapInsert k v m ↔ x = (k, v) ∨ (x ∈ m ∧ x.1 ≠ k)) := by
  intro m
  induction m with
  | nil => simp [bmapInsert]
  | cons p rest ih =>
    obtain ⟨k2, v2⟩ := p
    intro hm
    rw [List.pairwise_cons] at hm
    obtain ⟨hhead, hrest⟩ := hm
    simp only [bmapInsert]
    split
    · rename_i hlt
      constructor
      · intro hx
        rcases List.mem_cons.1 hx with rfl | hx
        · exact Or.inl rfl
        · refine Or.inr ⟨hx, fun he => ?_⟩
          rcases List.mem_cons.1 hx with rfl | hx2
          · rw [← he] at hlt
            rw [lexLt_irrefl] at hlt
            exact Bool.false_ne_true hlt
          · have h2 := hhead x hx2
            have h3 := lexLt_trans hlt h2
            rw [← he] at h3
            rw [lexLt_irrefl] at h3
            exact Bool.false_ne_true h3
      · intro hx
        rcases hx with rfl | ⟨hx, _⟩
        · exact List.mem_cons_self _ _
        · exact List.mem_cons_of_mem _ hx
    · split
      · rename_i hnlt hgt
        have hne2 : k2 ≠ k := fun he => by
          rw [he] at hgt
          rw [lexLt_irrefl] at hgt
          exact Bool.false_ne_true hgt
        constructor
        · intro hx
          rcases List.mem_cons.1 hx with rfl | hx
          · exact Or.inr ⟨List.mem_cons_self _ _, hne2⟩
          · rcases (ih hrest).1 hx with rfl | ⟨hx2, hne⟩
            · exact Or.inl rfl
            · exact Or.inr ⟨List.mem_cons_of_mem _ hx2, hne⟩
        · intro hx
          rcases hx with rfl | ⟨hx, hne⟩
          · exact List.mem_cons_of_mem _ ((ih hrest).2 (Or.inl rfl))
          · rcases List.mem_cons.1 hx with rfl | hx2
            · exact List.mem_cons_self _ _
            · exact List.mem_cons_of_mem _ ((ih hrest).2 (Or.inr ⟨hx2, hne⟩))
      · rename_i hnlt hngt
        have hk : k = k2 :=
          lexLt_eq_of_not_lt (Bool.of_not_eq_true hnlt) (Bool.of_not_eq_true hngt)
        subst hk
        constructor
        · intro hx
          rcases List.mem_cons.1 hx with rfl | hx
          · exact Or.inl rfl
          · refine Or.inr ⟨List.mem_cons_of_mem _ hx, fun he => ?_⟩
            have h2 := hhead x hx
            rw [← he] at h2
            rw [lexLt_irrefl] at h2
            exact Bool.false_ne_true h2
        · intro hx
          rcases hx with rfl | ⟨hx, hne⟩
          · exact List.mem_cons_self _ _
          · rcases List.mem_cons.1 hx with rfl | hx2
            · exact absurd rfl hne
            · exact List.mem_cons_of_mem _ hx2

theorem filesList_go (name : String) :
    ∀ (files : List V1FileEntry) (acc : List BencodeValue),
    (∀ f ∈ files, f.path_components.head? = some name) →
    List.foldlM (filesListStep name) acc files = .ok (acc ++ filesListSpec files) := by
  intro files
  induction files with
  | nil =>
    intro acc _
    show Except.ok acc = _
    simp [filesListSpec]
  | cons f rest ih =>
    intro acc h
    have hf : f.path_components.head? = some name := h f (by simp)
    rcases hcomp : f.path_components with - | ⟨c0, restComps⟩
    · rw [hcomp] at hf
      simp at hf
    · rw [hcomp] at hf
      simp only [List.head?_cons, Option.some.injEq] at hf
      subst hf
      rw [List.foldlM_cons]
      have hrest := fun g hg => h g (List.mem_cons_of_mem _ hg)
      by_cases hpad : 0 < f.padding
      · have hstep : filesListStep c0 acc f = .ok (acc ++
            [BencodeValue.Map
              [(ascii "length", BencodeValue.Integer (f.len : Int)),
               (ascii "path", BencodeValue.List (restComps.map
                  (fun c => BencodeValue.Bytes (ascii c))))],
             BencodeValue.Map
              [(ascii "attr", BencodeValue.Bytes (ascii "p")),
               (ascii "length", BencodeValue.Integer (f.padding : Int)),
               (ascii "path", BencodeValue.List
                  [BencodeValue.Bytes (ascii ".pad"),
                   BencodeValue.Bytes (natToAscii f.padding)])]]) := by
          have h1 : ascii "length" = [108, 101, 110, 103, 116, 104] := by decide
          have h2 : ascii "path" = [112, 97, 116, 104] := by decide
          have h3 : ascii "attr" = [97, 116, 116, 114] := by decide
          have h4 : ascii "p" = [112] := by decide
          have h5 : ascii ".pad" = [46, 112, 97, 100] := by decide
          simp only [filesListStep, hcomp]
          simp only [h1, h2, h3, h4, h5]
          simp only [bmapInsert, lexLt]
          norm_num [hpad]
          rfl
        rw [hstep]
        show List.foldlM (filesListStep c0) _ rest = _
        rw [ih _ hrest]
        simp [filesListSpec, hcomp, hpad]
      · have hstep : filesListStep c0 acc f = .ok (acc ++
            [BencodeValue.Map
              [(ascii "length", BencodeValue.Integer (f.len : Int)),
               (ascii "path", BencodeValue.List (restComps.map
                  (fun c => BencodeValue.Bytes (ascii c))))]]) := by
          have h1 : ascii "length" = [108, 101, 110, 103, 116, 104] := by decide
          have h2 : ascii "path" = [112, 97, 116, 104] := by decide
          simp only [filesListStep, hcomp]
          simp only [h1, h2]
          simp only [bmapInsert, lexLt]
          norm_num [hpad]
          rfl
        rw [hstep]
        show List.foldlM (filesListStep c0) _ rest = _
        rw [ih _ hrest]
        simp [filesListSpec, hcomp, hpad]

/-- C8: in multi-file v1 output, the `files` list holds, per input file in
list order, a dictionary with keys `length` and `path` (the components
after the root), and immediately after every file with `padding > 0` a
padding dictionary with `attr = "p"`, `length = padding` and
`path = [".pad", ascii-decimal-of-padding]`. -/
theorem c8_files_list_spec (name : String) (files : List V1FileEntry)
    (h : ∀ f ∈ files, f.path_components.head? = some name) :
    assembleFilesList name files = .ok (filesListSpec files) := by
  rw [assembleFilesList]
  simpa using filesList_go name files [] h

/-- Witness for C8 on the S3-style two-file input (10 KiB file with 6144
bytes of padding, then a 32 KiB file with none). -/
theorem c8_files_list_witness :
    assembleFilesList "root"
      [{ path_components := ["root", "a"], len := 10240, padding := 6144 },
       { path_components := ["root", "b"], len := 32768, padding := 0 }]
      = .ok (filesListSpec
      [{ path_components := ["root", "a"], len := 10240, padding := 6144 },
       { path_components := ["root", "b"], len := 32768, padding := 0 }]) :=
  c8_files_list_spec "root" _ (by decide)

theorem chunksOf_nil (ps : Nat) : chunksOf ps [] = [] := by
  rw [chunksOf]
  simp

theorem chunksOf_short {ps : Nat} {l : List Nat} (hps : ps ≠ 0) (hl : l ≠ [])
    (hlen : l.length ≤ ps) : chunksOf ps l = [l] := by
  rw [chunksOf, dif_neg hl, dif_neg hps]
  rw [List.take_of_length_le hlen, List.drop_eq_nil_of_le hlen, chunksOf_nil]

theorem chunksOf_block {ps : Nat} {b : List Nat} (r : List Nat) (hps : ps ≠ 0)
    (hb : b.length = ps) : chunksOf ps (b ++ r) = b :: chunksOf ps r := by
  have hbne : b ≠ [] := by
    intro h
    subst h
    simp only [List.length_nil] at hb
    omega
  have ht : (b ++ r).take ps = b := by
    rw [← hb]
    exact List.take_left b r
  have hd : (b ++ r).drop ps = r := by
    rw [← hb]
    exact List.drop_left b r
  rw [chunksOf, dif_neg (by intro hc; exact hbne (List.append_eq_nil.1 hc).1),
    dif_neg hps, ht, hd]

theorem chunksOf_append_aligned {ps : Nat} (hps : ps ≠ 0) (b r : List Nat)
    (hmod : b.length % ps = 0) :
    chunksOf ps (b ++ r) = chunksOf ps b ++ chunksOf ps r := by
  have key : ∀ (n : Nat) (b r : List Nat), b.length ≤ n → b.length % ps = 0 →
      chunksOf ps (b ++ r) = chunksOf ps b ++ chunksOf ps r := by
    intro n
    induction n with
    | zero =>
      intro b r hb _
      have : b = [] := by
        cases b with
        | nil => rfl
        | cons x t => simp at hb
      subst this
      simp [chunksOf_nil]
    | succ n ih =>
      intro b r hb hm
      rcases Nat.eq_zero_or_pos b.length with h0 | h0
      · have : b = [] := List.eq_nil_of_length_eq_zero h0
        subst this
        simp [chunksOf_nil]
      · have hpsle : ps ≤ b.length := by
          rcases Nat.lt_or_ge b.length ps with h | h
          · have := Nat.mod_eq_of_lt h
            omega
          · exact h
        have htlen : (b.take ps).length = ps := by
          rw [List.length_take]
          omega
        obtain ⟨k, hk⟩ := Nat.dvd_of_mod_eq_zero hm
        have hk1 : 1 ≤ k := by
          rcases Nat.eq_zero_or_pos k with h | h
          · subst h
            omega
          · exact h
        have hdlen : (b.drop ps).length = ps * (k - 1) := by
          rw [List.length_drop, hk]
          have : ps * k = ps * (k - 1) + ps := by
            rw [Nat.mul_sub_one]
            omega
          omega
        have hdm : (b.drop ps).length % ps = 0 := by
          rw [hdlen]
          exact Nat.mul_mod_right ps (k - 1)
        have hsplit : b = b.take ps ++ b.drop ps := (List.take_append_drop ps b).symm
        have hstep1 : chunksOf ps (b ++ r) =
            b.take ps :: chunksOf ps (b.drop ps ++ r) := by
          conv_lhs => rw [hsplit]
          rw [List.append_assoc]
          exact chunksOf_block _ hps htlen
        have hstep2 : chunksOf ps b = b.take ps :: chunksOf ps (b.drop ps) := by
          conv_lhs => rw [hsplit]
          exact chunksOf_block _ hps htlen
        rw [hstep1, hstep2]
        rw [ih (b.drop ps) r (by rw [List.length_drop]; omega) hdm]
        simp
  exact key b.length b r le_rfl hmod

theorem tailPiece_length {ps : Nat} (hps : 0 < ps) (s : List Nat) :
    (tailPiece ps s).length = s.length % ps := by
  rw [tailPiece, List.length_drop, Nat.mod_def]

theorem aligned_take_mod (ps : Nat) (s : List Nat) :
    (s.take (ps * (s.length / ps))).length % ps = 0 := by
  have hle : ps * (s.length / ps) ≤ s.length := Nat.mul_div_le s.length ps
  rw [List.length_take]
  rw [min_eq_left hle]
  exact Nat.mul_mod_right ps _

theorem aligned_prepend {ps : Nat} (hps : 0 < ps) (B u : List Nat)
    (hB : B.length % ps = 0) :
    fullPieces ps (B ++ u) = chunksOf ps B ++ fullPieces ps u ∧
    tailPiece ps (B ++ u) = tailPiece ps u ∧
    (B ++ u).length % ps = u.length % ps := by
  obtain ⟨k, hk⟩ := Nat.dvd_of_mod_eq_zero hB
  have hlen : (B ++ u).length = ps * k + u.length := by
    rw [List.length_append, hk]
  have hdiv : (B ++ u).length / ps = k + u.length / ps := by
    rw [hlen, Nat.mul_add_div hps]
  have hmod : (B ++ u).length % ps = u.length % ps := by
    rw [hlen, Nat.mul_add_mod]
  have hsum : ps * (k + u.length / ps) = B.length + ps * (u.length / ps) := by
    rw [Nat.mul_add, hk]
  refine ⟨?_, ?_, hmod⟩
  · rw [fullPieces, hdiv, hsum, List.take_append]
    rw [chunksOf_append_aligned (by omega) B _ hB]
    rfl
  · rw [tailPiece, tailPiece, hdiv, hsum, List.drop_append]

theorem chunksOf_decomp {ps : Nat} (hps : 0 < ps) (s : List Nat) :
    chunksOf ps s = fullPieces ps s ++
      (if s.length % ps = 0 then [] else [tailPiece ps s]) := by
  conv_lhs => rw [← List.take_append_drop (ps * (s.length / ps)) s]
  rw [chunksOf_append_aligned (by omega) _ _ (aligned_take_mod ps s)]
  rw [fullPieces]
  congr 1
  have htl : (tailPiece ps s).length = s.length % ps := tailPiece_length hps s
  rw [show s.drop (ps * (s.length / ps)) = tailPiece ps s from rfl]
  split
  · rename_i hz
    have : tailPiece ps s = [] := by
      apply List.eq_nil_of_length_eq_zero
      omega
    rw [this, chunksOf_nil]
  · rename_i hz
    apply chunksOf_short (by omega)
    · intro hc
      rw [hc] at htl
      simp only [List.length_nil] at htl
      omega
    · rw [htl]
      exact le_of_lt (Nat.mod_lt _ hps)

theorem bep3Loop_empty {ps : Nat} (hps : 0 < ps) (ctx : List Nat)
    (hashes : List (List Nat)) (hctx : ctx.length < ps) :
    bep3Loop ps (ps - ctx.length) [] ctx hashes =
      some (ps - ctx.length % ps, tailPiece ps ctx, hashes ++ fullPieces ps ctx) := by
  rw [bep3Loop]
  simp only [List.length_nil, Nat.min_zero, Nat.sub_zero, List.drop_nil,
    List.take_nil, List.append_nil, List.isEmpty_nil]
  rw [if_neg (by omega)]
  simp only [if_true]
  have hdiv : ctx.length / ps = 0 := Nat.div_eq_of_lt hctx
  have hmod : ctx.length % ps = ctx.length := Nat.mod_eq_of_lt hctx
  rw [hmod, tailPiece, fullPieces, hdiv, Nat.mul_zero, List.drop_zero,
    List.take_zero, chunksOf_nil, List.append_nil]

theorem bep3Loop_spec {ps : Nat} (hps : 0 < ps) :
    ∀ (n : Nat) (data ctx : List Nat) (hashes : List (List Nat)),
    data.length ≤ n → ctx.length < ps →
    bep3Loop ps (ps - ctx.length) data ctx hashes =
      some (ps - (ctx ++ data).length % ps, tailPiece ps (ctx ++ data),
        hashes ++ fullPieces ps (ctx ++ data)) := by
  intro n
  induction n with
  | zero =>
    intro data ctx hashes hlen hctx
    have : data = [] := by
      cases data with
      | nil => rfl
      | cons x t => simp at hlen
    subst this
    rw [List.append_nil]
    exact bep3Loop_empty hps ctx hashes hctx
  | succ n ih =>
    intro data ctx hashes hlen hctx
    rcases Nat.eq_zero_or_pos data.length with hd0 | hd0
    · have : data = [] := List.eq_nil_of_length_eq_zero hd0
      subst this
      rw [List.append_nil]
      exact bep3Loop_empty hps ctx hashes hctx
    · by_cases hcase : ps - ctx.length ≤ data.length
      · -- the data completes the current piece
        have hm : min (ps - ctx.length) data.length = ps - ctx.length :=
          min_eq_left hcase
        have htake : (data.take (ps - ctx.length)).length = ps - ctx.length := by
          rw [List.length_take]
          omega
        have hc1len : (ctx ++ data.take (ps - ctx.length)).length = ps := by
          rw [List.length_append, htake]
          omega
        rw [bep3Loop]
        rw [hm]
        rw [if_pos (by omega)]
        by_cases hd1 : data.length = ps - ctx.length
        · -- the data ends exactly at the piece boundary
          have hdrop : data.drop (ps - ctx.length) = [] :=
            List.drop_eq_nil_of_le (by omega)
          rw [hdrop]
          rw [if_pos List.isEmpty_nil]
          have hall : data.take (ps - ctx.length) = data :=
            List.take_of_length_le (by omega)
          have hslen : (ctx ++ data).length = ps := by
            rw [List.length_append]
            omega
          have hmod : (ctx ++ data).length % ps = 0 := by
            rw [hslen, Nat.mod_self]
          have hdiv : (ctx ++ data).length / ps = 1 := by
            rw [hslen, Nat.div_self hps]
          rw [hall] at hc1len ⊢
          rw [hmod, Nat.sub_zero, tailPiece, fullPieces, hdiv, Nat.mul_one]
          rw [List.drop_eq_nil_of_le (by omega), List.take_of_length_le (by omega)]
          rw [chunksOf_short (by omega) (by
            intro hc
            rw [hc] at hslen
            simp only [List.length_nil] at hslen
            omega) (by omega)]
        · -- a full piece was cut, data continues
          have hd1lt : ps - ctx.length < data.length := by omega
          have hdropne : ¬ (data.drop (ps - ctx.length)).isEmpty = true := by
            rw [List.isEmpty_eq_true, ← List.length_eq_zero, List.length_drop]
            omega
          rw [if_neg hdropne]
          rw [if_neg (by omega)]
          have hih := ih (data.drop (ps - ctx.length)) []
            (hashes ++ [ctx ++ data.take (ps - ctx.length)])
            (by rw [List.length_drop]; omega) (by simpa using hps)
          simp only [List.length_nil, Nat.sub_zero, List.nil_append] at hih
          rw [hih]
          obtain ⟨hfull, htail, hmod⟩ := aligned_prepend hps
            (ctx ++ data.take (ps - ctx.length)) (data.drop (ps - ctx.length))
            (by rw [hc1len]; exact Nat.mod_self ps)
          have hjoin : (ctx ++ data.take (ps - ctx.length)) ++
              data.drop (ps - ctx.length) = ctx ++ data := by
            rw [List.append_assoc, List.take_append_drop]
          rw [hjoin] at hfull htail hmod
          rw [← hmod, ← htail, hfull]
          rw [chunksOf_short (by omega) (by
            intro hc
            have := congrArg List.length hc
            rw [hc1len] at this
            simp only [List.length_nil] at this
            omega) (le_of_eq hc1len)]
          simp
      · -- the data is consumed inside the current piece
        have hm : min (ps - ctx.length) data.length = data.length :=
          min_eq_right (by omega)
        rw [bep3Loop]
        rw [hm]
        rw [if_neg (by omega)]
        rw [List.drop_length, List.take_length]
        rw [if_pos List.isEmpty_nil]
        have hslen : (ctx ++ data).length = ctx.length + data.length := by
          rw [List.length_append]
        have hlt : (ctx ++ data).length < ps := by omega
        have hmod : (ctx ++ data).length % ps = ctx.length + data.length :=
          by rw [hslen] at hlt ⊢; exact Nat.mod_eq_of_lt hlt
        have hdiv : (ctx ++ data).length / ps = 0 := Nat.div_eq_of_lt hlt
        rw [hmod, tailPiece, fullPieces, hdiv, Nat.mul_zero, List.drop_zero,
          List.take_zero, chunksOf_nil, List.append_nil]
        simp only [Option.some.injEq, Prod.mk.injEq, Nat.sub_sub, and_self,
          and_true, true_and]

theorem visitFile_spec {ps : Nat} (hps : 0 < ps) (s d : List Nat) :
    Bep3Hasher.visitFile
      (Bep3Hasher.mk ps (fullPieces ps s) (tailPiece ps s) (s.length % ps)) d =
      some (Bep3Hasher.mk ps (fullPieces ps (s ++ d)) (tailPiece ps (s ++ d))
        ((s ++ d).length % ps)) := by
  have htl : (tailPiece ps s).length = s.length % ps := tailPiece_length hps s
  have hlt : (tailPiece ps s).length < ps := by
    rw [htl]
    exact Nat.mod_lt _ hps
  have hloop := bep3Loop_spec hps d.length d (tailPiece ps s) (fullPieces ps s)
    le_rfl hlt
  rw [Bep3Hasher.visitFile]
  simp only
  rw [show ps - s.length % ps = ps - (tailPiece ps s).length by rw [htl]]
  rw [hloop]
  obtain ⟨hfull, htail, hmod⟩ := aligned_prepend hps
    (s.take (ps * (s.length / ps))) (tailPiece ps s ++ d) (aligned_take_mod ps s)
  have hjoin : s.take (ps * (s.length / ps)) ++ (tailPiece ps s ++ d) = s ++ d := by
    rw [← List.append_assoc]
    rw [show s.take (ps * (s.length / ps)) ++ tailPiece ps s = s from
      List.take_append_drop _ s]
  rw [hjoin] at hfull htail hmod
  have hple : (tailPiece ps s ++ d).length % ps < ps := Nat.mod_lt _ hps
  show some (Bep3Hasher.mk ps
      (fullPieces ps s ++ fullPieces ps (tailPiece ps s ++ d))
      (tailPiece ps (tailPiece ps s ++ d))
      (ps - (ps - (tailPiece ps s ++ d).length % ps))) = _
  have hh : fullPieces ps s ++ fullPieces ps (tailPiece ps s ++ d) =
      fullPieces ps (s ++ d) := by
    rw [hfull]
    rfl
  have hs : ps - (ps - (tailPiece ps s ++ d).length % ps) =
      (s ++ d).length % ps := by
    rw [hmod]
    omega
  rw [hh, hs, ← htail]

/-- C10: the no-padding v1-only path computes `pieces` as one continuous
SHA-1 stream over the concatenation of all files in order: the hasher
state carries across file boundaries, empty files contribute nothing, and
the final piece, when shorter than `piece_size`, covers only the remaining
real bytes with no zero fill — the per-piece hash inputs are exactly the
stream cut into `piece_size`-byte chunks. -/
theorem c10_bep3_piece_stream (ps : Nat) (files : List (List Nat))
    (hps : 0 < ps) :
    bep3Pieces ps files = some (chunksOf ps files.flatten) := by
  have hfold : ∀ (fs : List (List Nat)) (s : List Nat),
      List.foldlM (fun h data => Bep3Hasher.visitFile h data)
        (Bep3Hasher.mk ps (fullPieces ps s) (tailPiece ps s) (s.length % ps)) fs =
      some (Bep3Hasher.mk ps (fullPieces ps (s ++ fs.flatten))
        (tailPiece ps (s ++ fs.flatten)) ((s ++ fs.flatten).length % ps)) := by
    intro fs
    induction fs with
    | nil =>
      intro s
      rw [List.foldlM_nil]
      simp
    | cons d rest ih =>
      intro s
      rw [List.foldlM_cons, visitFile_spec hps s d]
      show List.foldlM (fun h data => Bep3Hasher.visitFile h data)
        (Bep3Hasher.mk ps (fullPieces ps (s ++ d)) (tailPiece ps (s ++ d))
          ((s ++ d).length % ps)) rest = _
      rw [ih (s ++ d)]
      rw [List.flatten_cons, ← List.append_assoc]
  have hinit : Bep3Hasher.new ps =
      Bep3Hasher.mk ps (fullPieces ps []) (tailPiece ps [])
        (([] : List Nat).length % ps) := by
    rw [Bep3Hasher.new]
    simp [fullPieces, tailPiece, chunksOf_nil]
  have h0 := hfold files []
  simp only [List.nil_append] at h0
  rw [bep3Pieces, hinit, h0]
  show some ((Bep3Hasher.mk ps (fullPieces ps files.flatten)
      (tailPiece ps files.flatten) (files.flatten.length % ps)).visitEnd).hashes =
    some (chunksOf ps files.flatten)
  have hve : ∀ (Hs : List (List Nat)) (ctx : List Nat) (n : Nat),
      (Bep3Hasher.mk ps Hs ctx n).visitEnd =
        if 0 < n then Bep3Hasher.mk ps (Hs ++ [ctx]) [] 0
        else Bep3Hasher.mk ps Hs ctx n := fun _ _ _ => rfl
  rw [hve, chunksOf_decomp hps files.flatten]
  by_cases hz : files.flatten.length % ps = 0
  · rw [if_neg (by omega), if_pos hz, List.append_nil]
  · rw [if_pos (by omega), if_neg hz]

/-- Witness for C10: three files (one empty) over piece size 5. -/
theorem c10_bep3_piece_stream_witness :
    bep3Pieces 5 [[1, 2, 3], [], [4, 5, 6, 7]] =
      some (chunksOf 5 ([[1, 2, 3], [], [4, 5, 6, 7]] : List (List Nat)).flatten) :=
  c10_bep3_piece_stream 5 [[1, 2, 3], [], [4, 5, 6, 7]] (by norm_num)

theorem list_pair_induction {α : Type} (P : List α → Prop) (h0 : P [])
    (h1 : ∀ a, P [a]) (h2 : ∀ a b rest, P rest → P (a :: b :: rest)) :
    ∀ l, P l := by
  have key : ∀ (n : Nat) (l : List α), l.length ≤ n → P l := by
    intro n
    induction n with
    | zero =>
      intro l hl
      rcases l with - | ⟨a, t⟩
      · exact h0
      · simp at hl
    | succ n ih =>
      intro l hl
      rcases l with - | ⟨a, - | ⟨b, rest⟩⟩
      · exact h0
      · exact h1 a
      · exact h2 a b rest (ih rest (by simp only [List.length_cons] at hl; omega))
  exact fun l => key l.length l le_rfl

theorem hashPairs_length {H : Type} (hash : H → H → H) (l : List H) :
    (hashPairs hash l).length = l.length / 2 := by
  induction l using list_pair_induction with
  | h0 => simp [hashPairs]
  | h1 a => simp [hashPairs]
  | h2 a b rest ih =>
    simp only [hashPairs, List.length_cons, ih]
    omega

theorem hashPairs_append_even {H : Type} (hash : H → H → H) {l : List H}
    (r : List H) (hl : l.length % 2 = 0) :
    hashPairs hash (l ++ r) = hashPairs hash l ++ hashPairs hash r := by
  induction l using list_pair_induction with
  | h0 => simp [hashPairs]
  | h1 a => simp at hl
  | h2 a b rest ih =>
    simp only [List.length_cons] at hl
    simp only [List.cons_append, hashPairs, List.append_eq]
    rw [ih (by omega)]

theorem hashPairs_replicate {H : Type} (hash : H → H → H) (m : Nat) (z : H) :
    hashPairs hash (List.replicate (2 * m) z) = List.replicate m (hash z z) := by
  induction m with
  | zero => simp [hashPairs]
  | succ m ih =>
    have : 2 * (m + 1) = (2 * m) + 1 + 1 := by omega
    rw [this, List.replicate_succ, List.replicate_succ]
    simp only [hashPairs, ih]
    rw [List.replicate_succ]

theorem hashPairs_append_single_odd {H : Type} (hash : H → H → H) {l : List H}
    (z : H) (hl : l.length % 2 = 1) :
    ∀ a, l.getLast? = some a →
    hashPairs hash (l ++ [z]) = hashPairs hash l ++ [hash a z] := by
  induction l using list_pair_induction with
  | h0 => simp at hl
  | h1 b =>
    intro a ha
    simp only [List.getLast?_singleton, Option.some.injEq] at ha
    subst ha
    simp [hashPairs]
  | h2 b c rest ih =>
    intro a ha
    simp only [List.length_cons] at hl
    rw [List.getLast?_cons_cons] at ha
    have hrest : rest.length % 2 = 1 := by omega
    obtain ⟨d, rest2, rfl⟩ : ∃ d rest2, rest = d :: rest2 := by
      rcases rest with - | ⟨d, rest2⟩
      · simp at hrest
      · exact ⟨d, rest2, rfl⟩
    rw [List.getLast?_cons_cons] at ha
    have hstep : (b :: c :: (d :: rest2)) ++ [z] =
        b :: c :: ((d :: rest2) ++ [z]) := by simp
    rw [hstep]
    simp only [hashPairs]
    rw [ih hrest a ha]
    simp

theorem merkleNextLayer_even {H : Type} (hash : H → H → H) (filler : H)
    {src : List H} (h : src.length % 2 = 0) :
    merkleNextLayer hash filler src = hashPairs hash src := by
  rw [merkleNextLayer, if_neg (by omega)]
  simp

theorem merkleNextLayer_odd {H : Type} (hash : H → H → H) (filler : H)
    {src : List H} {a : H} (h : src.length % 2 = 1) (h1 : 1 < src.length)
    (ha : src.getLast? = some a) :
    merkleNextLayer hash filler src = hashPairs hash src ++ [hash a filler] := by
  rw [merkleNextLayer, if_pos ⟨h1, h⟩, ha]
  rfl

theorem merkleNextLayer_length {H : Type} (hash : H → H → H) (filler : H)
    (src : List H) (h1 : 1 < src.length) :
    (merkleNextLayer hash filler src).length = (src.length + src.length % 2) / 2 := by
  rcases Nat.even_or_odd src.length with he | ho
  · have h2 : src.length % 2 = 0 := Nat.even_iff.1 he
    rw [merkleNextLayer_even hash filler h2, hashPairs_length, h2]
    omega
  · have h2 : src.length % 2 = 1 := Nat.odd_iff.1 ho
    have hne : src ≠ [] := by intro h; subst h; simp at h1
    obtain ⟨a, ha⟩ := Option.isSome_iff_exists.1 (List.getLast?_isSome.2 hne)
    rw [merkleNextLayer_odd hash filler h2 h1 ha]
    rw [List.length_append, hashPairs_length, h2]
    simp only [List.length_singleton]
    omega

theorem merkleRootPerfect_step {H : Type} (hash : H → H → H) {src : List H}
    (h : 2 ≤ src.length) :
    merkleRootPerfect hash src = merkleRootPerfect hash (hashPairs hash src) := by
  rcases src with - | ⟨a, - | ⟨b, rest⟩⟩
  · simp at h
  · simp at h
  · rw [merkleRootPerfect]

theorem merkleRootCode_step {H : Type} (hash : H → H → H) (z0 : H) (level : Nat)
    {src : List H} (h : 2 ≤ src.length) :
    merkleRootCode hash z0 level src =
      merkleRootCode hash z0 (level + 1)
        (merkleNextLayer hash (zeroFiller hash z0 level) src) := by
  rcases src with - | ⟨a, - | ⟨b, rest⟩⟩
  · simp at h
  · simp at h
  · rw [merkleRootCode]

theorem merkleRoot_padded {H : Type} (hash : H → H → H) (z0 : H) :
    ∀ (c L : Nat) (S : List H), 1 ≤ S.length → S.length ≤ 2 ^ c →
    2 ^ c < 2 * S.length →
    merkleRootPerfect hash
        (S ++ List.replicate (2 ^ c - S.length) (zeroFiller hash z0 L)) =
      merkleRootCode hash z0 L S := by
  intro c
  induction c with
  | zero =>
    intro L S h1 h2 _
    have hlen : S.length = 1 := by simpa using Nat.le_antisymm h2 h1
    rcases S with - | ⟨a, - | ⟨b, rest⟩⟩
    · simp at hlen
    · simp only [pow_zero, List.length_singleton, Nat.sub_self, List.replicate_zero,
        List.append_nil]
      rw [merkleRootPerfect, merkleRootCode]
    · simp at hlen
  | succ c ih =>
    intro L S h1 h2 h3
    have h2c : 2 ^ (c + 1) = 2 * 2 ^ c := by rw [pow_succ]; ring
    have hcS : 2 ^ c < S.length := by omega
    have hS2 : 2 ≤ S.length := by
      have : 1 ≤ 2 ^ c := Nat.one_le_two_pow
      omega
    have hTlen : (S ++ List.replicate (2 ^ (c + 1) - S.length)
        (zeroFiller hash z0 L)).length = 2 ^ (c + 1) := by
      simp only [List.length_append, List.length_replicate]
      omega
    rw [merkleRootPerfect_step hash (by omega)]
    rw [merkleRootCode_step hash z0 L hS2]
    rcases Nat.even_or_odd S.length with he | ho
    · -- even leaf count: the padding splits into whole pairs
      have hmod : S.length % 2 = 0 := Nat.even_iff.1 he
      have hcount : 2 ^ (c + 1) - S.length = 2 * (2 ^ c - S.length / 2) := by omega
      rw [hcount, hashPairs_append_even hash _ hmod, hashPairs_replicate]
      have hz : hash (zeroFiller hash z0 L) (zeroFiller hash z0 L) =
          zeroFiller hash z0 (L + 1) := rfl
      rw [hz]
      rw [merkleNextLayer_even hash _ hmod]
      have hlen2 : (hashPairs hash S).length = S.length / 2 := hashPairs_length hash S
      rw [show (2 ^ c - S.length / 2) = 2 ^ c - (hashPairs hash S).length by omega]
      exact ih (L + 1) (hashPairs hash S) (by omega) (by omega) (by omega)
    · -- odd leaf count: one filler completes the lone pair, the rest split
      have hmod : S.length % 2 = 1 := Nat.odd_iff.1 ho
      have hne : S ≠ [] := by intro h; subst h; simp at h1
      obtain ⟨a, ha⟩ := Option.isSome_iff_exists.1 (List.getLast?_isSome.2 hne)
      have hcount : 2 ^ (c + 1) - S.length =
          1 + 2 * (2 ^ c - (S.length + 1) / 2) := by omega
      rw [hcount]
      have hrep : List.replicate (1 + 2 * (2 ^ c - (S.length + 1) / 2))
            (zeroFiller hash z0 L) =
          [zeroFiller hash z0 L] ++ List.replicate (2 * (2 ^ c - (S.length + 1) / 2))
            (zeroFiller hash z0 L) := by
        rw [List.singleton_append, ← List.replicate_succ]
        congr 1
        omega
      rw [hrep]
      rw [← List.append_assoc]
      have heven : (S ++ [zeroFiller hash z0 L]).length % 2 = 0 := by
        simp only [List.length_append, List.length_singleton]
        omega
      rw [hashPairs_append_even hash _ heven]
      rw [hashPairs_replicate]
      have hz : hash (zeroFiller hash z0 L) (zeroFiller hash z0 L) =
          zeroFiller hash z0 (L + 1) := rfl
      rw [hz]
      rw [hashPairs_append_single_odd hash _ hmod a ha]
      rw [merkleNextLayer_odd hash _ hmod (by omega) ha]
      have hlen2 : (hashPairs hash S ++ [hash a (zeroFiller hash z0 L)]).length =
          (S.length + 1) / 2 := by
        rw [List.length_append, hashPairs_length]
        simp only [List.length_singleton]
        omega
      have hlen3 : (2 ^ c - (S.length + 1) / 2) =
          2 ^ c - (hashPairs hash S ++ [hash a (zeroFiller hash z0 L)]).length := by
        rw [hlen2]
      rw [hlen3]
      exact ih (L + 1) _ (by rw [hlen2]; omega) (by rw [hlen2]; omega)
        (by rw [hlen2]; omega)

/-- C5: for a file with length `flen > 0` and more than one Merkle leaf,
the layer-by-layer completion loop — pairwise SHA-256 with the lone
trailing hash of layer `L` paired against the zero-filler `Z[L]` — yields
a pieces-root equal to the Merkle root over its `ceil(flen/16384)` leaves
padded to the next power of two with fillers
(`Z[0] = 32 zero bytes`, `Z[i+1] = SHA-256(Z[i] ‖ Z[i])`), for any digest
function. -/
theorem c5_merkle_root_spec {H : Type} (hash : H → H → H) (z0 : H)
    (flen : Nat) (leaves : List H) (hflen : 0 < flen)
    (hlen : leaves.length = (flen - 1) / 16384 + 1)
    (h2 : 2 ≤ leaves.length) :
    merkleRootCode hash z0 0 leaves = merkleRootSpec hash z0 leaves := by
  rw [merkleRootSpec]
  have hc : 0 < Nat.clog 2 leaves.length := Nat.clog_pos (by norm_num) h2
  have hlt : 2 ^ (Nat.clog 2 leaves.length - 1) < leaves.length :=
    Nat.pow_pred_clog_lt_self (by norm_num) h2
  have hpow : 2 ^ Nat.clog 2 leaves.length =
      2 * 2 ^ (Nat.clog 2 leaves.length - 1) := by
    rw [← pow_succ']
    congr 1
    omega
  have hmain := merkleRoot_padded hash z0 (Nat.clog 2 leaves.length) 0 leaves
    (by omega) (Nat.le_pow_clog (by norm_num) _) (by omega)
  exact hmain.symm

/-- Witness for C5 with a concrete pairing function on three leaves
(a 40000-byte file has `ceil(40000/16384) = 3` leaves). -/
theorem c5_merkle_root_witness :
    merkleRootCode (fun a b : Nat => (a + b) * (a + b + 1) / 2 + b + 1) 0 0
        [5, 7, 9] =
      merkleRootSpec (fun a b : Nat => (a + b) * (a + b + 1) / 2 + b + 1) 0
        [5, 7, 9] :=
  c5_merkle_root_spec (fun a b : Nat => (a + b) * (a + b + 1) / 2 + b + 1) 0
    40000 [5, 7, 9] (by norm_num) (by norm_num) (by norm_num)

theorem pieceLayers_go (ps pieceLevel : Nat) :
    ∀ (files : List V2FileHash) (acc : List (List Nat × BencodeValue)),
    (∀ f ∈ files, ps < f.len →
      (∃ key, f.merkle_tree.getLast? = some key ∧ key.length = 32) ∧
      (∃ val, f.merkle_tree[pieceLevel]? = some val ∧
        val.length % 32 = 0 ∧ 32 < val.length)) →
    acc.Pairwise (fun p q => lexLt p.1 q.1 = true) →
    ∃ m, List.foldlM (pieceLayersStep ps pieceLevel) acc files = .ok m ∧
      m.Pairwise (fun p q => lexLt p.1 q.1 = true) ∧
      (∀ k, (∃ v, (k, v) ∈ m) ↔ ((∃ v, (k, v) ∈ acc) ∨
        ∃ f ∈ files, ps < f.len ∧ f.merkle_tree.getLast? = some k)) ∧
      (∀ k v, (k, v) ∈ m → ((k, v) ∈ acc ∨
        ∃ f ∈ files, ps < f.len ∧ f.merkle_tree.getLast? = some k ∧
          ∃ val, f.merkle_tree[pieceLevel]? = some val ∧
            v = BencodeValue.Bytes val)) := by
  intro files
  induction files with
  | nil =>
    intro acc _ hacc
    exact ⟨acc, rfl, hacc, fun k => by simp, fun k v hkv => Or.inl hkv⟩
  | cons f rest ih =>
    intro acc h hacc
    have hrest := fun g hg => h g (List.mem_cons_of_mem _ hg)
    by_cases hq : ps < f.len
    · obtain ⟨⟨key, hkey, hkeylen⟩, ⟨val, hval, hvmod, hvlen⟩⟩ := h f (by simp) hq
      have hnq : ¬ f.len ≤ ps := by omega
      have hstep : pieceLayersStep ps pieceLevel acc f =
          .ok (bmapInsert key (BencodeValue.Bytes val) acc) := by
        simp [pieceLayersStep, hnq, hkey, hval, hkeylen, hvmod, hvlen]
        rfl
      obtain ⟨m, hm, hmsort, hmkeys, hmvals⟩ :=
        ih (bmapInsert key (BencodeValue.Bytes val) acc) hrest
          (bmapInsert_pairwise _ _ _ hacc)
      refine ⟨m, ?_, hmsort, ?_, ?_⟩
      · rw [List.foldlM_cons, hstep]
        exact hm
      · intro k
        rw [hmkeys k]
        constructor
        · rintro (⟨v, hv⟩ | ⟨g, hg, hgq, hgk⟩)
          · rcases (mem_bmapInsert_iff hacc).1 hv with heq | ⟨hmem, hne⟩
            · have hk : k = key := congrArg Prod.fst heq
              subst hk
              exact Or.inr ⟨f, by simp, hq, hkey⟩
            · exact Or.inl ⟨v, hmem⟩
          · exact Or.inr ⟨g, List.mem_cons_of_mem _ hg, hgq, hgk⟩
        · rintro (⟨v, hv⟩ | ⟨g, hg, hgq, hgk⟩)
          · by_cases hk : k = key
            · subst hk
              exact Or.inl ⟨BencodeValue.Bytes val,
                (mem_bmapInsert_iff hacc).2 (Or.inl rfl)⟩
            · exact Or.inl ⟨v, (mem_bmapInsert_iff hacc).2 (Or.inr ⟨hv, hk⟩)⟩
          · rcases List.mem_cons.1 hg with rfl | hg2
            · rw [hkey] at hgk
              have hk : key = k := by injection hgk
              subst hk
              exact Or.inl ⟨BencodeValue.Bytes val,
                (mem_bmapInsert_iff hacc).2 (Or.inl rfl)⟩
            · exact Or.inr ⟨g, hg2, hgq, hgk⟩
      · intro k v hkv
        rcases hmvals k v hkv with hin | ⟨g, hg, hgq, hgk, hval2⟩
        · rcases (mem_bmapInsert_iff hacc).1 hin with heq | ⟨hmem, _⟩
          · have hk : k = key := congrArg Prod.fst heq
            have hv : v = BencodeValue.Bytes val := congrArg Prod.snd heq
            subst hk
            exact Or.inr ⟨f, by simp, hq, hkey, val, hval, hv⟩
          · exact Or.inl hmem
        · exact Or.inr ⟨g, List.mem_cons_of_mem _ hg, hgq, hgk, hval2⟩
    · have hq2 : f.len ≤ ps := by omega
      have hstep : pieceLayersStep ps pieceLevel acc f = .ok acc := by
        simp [pieceLayersStep, hq2]
        rfl
      obtain ⟨m, hm, hmsort, hmkeys, hmvals⟩ := ih acc hrest hacc
      refine ⟨m, ?_, hmsort, ?_, ?_⟩
      · rw [List.foldlM_cons, hstep]
        exact hm
      · intro k
        rw [hmkeys k]
        constructor
        · rintro (hv | ⟨g, hg, hgq, hgk⟩)
          · exact Or.inl hv
          · exact Or.inr ⟨g, List.mem_cons_of_mem _ hg, hgq, hgk⟩
        · rintro (hv | ⟨g, hg, hgq, hgk⟩)
          · exact Or.inl hv
          · rcases List.mem_cons.1 hg with rfl | hg2
            · exact absurd hgq hq
            · exact Or.inr ⟨g, hg2, hgq, hgk⟩
      · intro k v hkv
        rcases hmvals k v hkv with hin | ⟨g, hg, hgq, hgk, hval2⟩
        · exact Or.inl hin
        · exact Or.inr ⟨g, List.mem_cons_of_mem _ hg, hgq, hgk, hval2⟩

/-- C6 counterexample: two identical files of two pieces each (32 KiB,
piece size 16 KiB) share one pieces-root, so the `piece layers` map holds
one entry for two qualifying files — not "exactly one entry for every
file whose length exceeds one piece". -/
theorem c6_piece_layers_counterexample :
    (assemblePieceLayers 16384 0
        [{ len := 32768, merkle_tree := [List.replicate 64 1, List.replicate 32 0] },
         { len := 32768, merkle_tree := [List.replicate 64 1, List.replicate 32 0] }]).toOption.map
      List.length = some 1 ∧
    ([{ len := 32768, merkle_tree := [List.replicate 64 1, List.replicate 32 0] },
      { len := 32768,
        merkle_tree := [List.replicate 64 1, List.replicate 32 0] }].filter
        (fun g : V2FileHash => decide (16384 < g.len))).length = 2 := by
  constructor
  · rfl
  · rfl

/-- C6 amended: when v2 output is enabled the `piece layers` dictionary
holds exactly one entry per distinct pieces-root among the files with
`length > piece_size` — files sharing a pieces-root share one entry — and
no other entries; every entry maps such a root to the `Bytes` of the
piece-level Merkle layer of a file carrying that root. -/
theorem c6_piece_layers_amended (ps pieceLevel : Nat) (files : List V2FileHash)
    (h : ∀ f ∈ files, ps < f.len →
      (∃ key, f.merkle_tree.getLast? = some key ∧ key.length = 32) ∧
      (∃ val, f.merkle_tree[pieceLevel]? = some val ∧
        val.length % 32 = 0 ∧ 32 < val.length)) :
    ∃ m, assemblePieceLayers ps pieceLevel files = .ok m ∧
      m.Pairwise (fun p q => lexLt p.1 q.1 = true) ∧
      (∀ k, (∃ v, (k, v) ∈ m) ↔
        ∃ f ∈ files, ps < f.len ∧ f.merkle_tree.getLast? = some k) ∧
      (∀ k v, (k, v) ∈ m →
        ∃ f ∈ files, ps < f.len ∧ f.merkle_tree.getLast? = some k ∧
          ∃ val, f.merkle_tree[pieceLevel]? = some val ∧
            v = BencodeValue.Bytes val) := by
  obtain ⟨m, hm, hsort, hkeys, hvals⟩ := pieceLayers_go ps pieceLevel files [] h (by simp)
  refine ⟨m, hm, hsort, ?_, ?_⟩
  · intro k
    rw [hkeys k]
    simp
  · intro k v hkv
    rcases hvals k v hkv with hin | hout
    · simp at hin
    · exact hout

/-- Witness for C6's amended statement on one concrete two-piece file. -/
theorem c6_piece_layers_witness :
    ∃ m, assemblePieceLayers 16384 0
        [V2FileHash.mk 32768 [List.replicate 64 1, List.replicate 32 0]] = .ok m ∧
      m.Pairwise (fun p q => lexLt p.1 q.1 = true) ∧
      (∀ k, (∃ v, (k, v) ∈ m) ↔
        ∃ f ∈ [V2FileHash.mk 32768 [List.replicate 64 1, List.replicate 32 0]],
          16384 < f.len ∧ f.merkle_tree.getLast? = some k) ∧
      (∀ k v, (k, v) ∈ m →
        ∃ f ∈ [V2FileHash.mk 32768 [List.replicate 64 1, List.replicate 32 0]],
          16384 < f.len ∧ f.merkle_tree.getLast? = some k ∧
          ∃ val, f.merkle_tree[0]? = some val ∧
            v = BencodeValue.Bytes val) := by
  apply c6_piece_layers_amended
  intro f hf _
  simp only [List.mem_singleton] at hf
  subst hf
  refine ⟨⟨List.replicate 32 0, by rfl, by simp⟩,
    ⟨List.replicate 64 1, by rfl, by simp, by simp⟩⟩

/-- C1: the marking pass of `TorrentMetadataV2::new` iterates the empty
Rust range `files.len() - 1..=0` on any list of more than one file, so for
the sorted two-file input below (10 KiB each, piece size 16 KiB) no file
is marked `is_last_data_file` and the final data-bearing file keeps
padding 6144 — while the claim requires the last file marked `true` with
padding overwritten to 0. -/
theorem c1_last_data_file_marking_bug :
    (TorrentMetadataV2.new [["udp://tracker.example/announce"]] [] false
        (some 16384) []
        [{ path_components := ["root", "a"], len := 10240 },
         { path_components := ["root", "b"], len := 10240 }]).toOption.map
      (fun tm => (tm.files.map FileMetadata.is_last_data_file,
        tm.files.map FileMetadata.padding))
      = some ([false, false], [6144, 6144]) ∧
    (([false, false], [6144, 6144]) : List Bool × List Nat)
      ≠ ([false, true], [6144, 0]) := by
  constructor
  · have hsel : pieceSizeSelectV2 (some 16384) 20480 = .ok 16384 := rfl
    have hlvl : pieceLevelLoop 16384 16384 0 = some 0 := by
      rw [pieceLevelLoop]
      norm_num
    simp [TorrentMetadataV2.new, hsel, hlvl, FileMetadata.new, rangeInclusive,
      Except.toOption]
  · decide

theorem consecFrom_le : ∀ (ivs : List (Nat × Nat)) (pos e : Nat),
    consecFrom pos ivs = some e → pos ≤ e := by
  intro ivs
  induction ivs with
  | nil =>
    intro pos e h
    simp only [consecFrom, Option.some.injEq] at h
    omega
  | cons iv rest ih =>
    intro pos e h
    obtain ⟨s, l⟩ := iv
    simp only [consecFrom] at h
    split at h
    · have := ih (pos + l) e h
      omega
    · exact absurd h (by simp)

theorem consecFrom_mono : ∀ (ivs : List (Nat × Nat)) (pos e : Nat),
    consecFrom pos ivs = some e → ∀ iv ∈ ivs, pos ≤ iv.1 ∧ iv.1 + iv.2 ≤ e := by
  intro ivs
  induction ivs with
  | nil => simp
  | cons iv0 rest ih =>
    intro pos e h iv hiv
    obtain ⟨s, l⟩ := iv0
    simp only [consecFrom] at h
    split at h
    · rename_i hs
      rcases List.mem_cons.1 hiv with rfl | hiv2
      · have h2 := consecFrom_le rest (pos + l) e h
        subst hs
        exact ⟨Nat.le_refl _, h2⟩
      · have := ih (pos + l) e h iv hiv2
        omega
    · exact absurd h (by simp)

theorem consecFrom_pairwise : ∀ (ivs : List (Nat × Nat)) (pos e : Nat),
    consecFrom pos ivs = some e →
    ivs.Pairwise (fun a b => a.1 + a.2 ≤ b.1) := by
  intro ivs
  induction ivs with
  | nil => simp
  | cons iv0 rest ih =>
    intro pos e h
    obtain ⟨s, l⟩ := iv0
    simp only [consecFrom] at h
    split at h
    · rename_i hs
      rw [List.pairwise_cons]
      refine ⟨?_, ih (pos + l) e h⟩
      intro b hb
      have h2 := (consecFrom_mono rest (pos + l) e h b hb).1
      subst hs
      exact h2
    · exact absurd h (by simp)

theorem consecFrom_cover : ∀ (ivs : List (Nat × Nat)) (pos e : Nat),
    consecFrom pos ivs = some e →
    ∀ x, (pos ≤ x ∧ x < e) ↔ ∃ iv ∈ ivs, iv.1 ≤ x ∧ x < iv.1 + iv.2 := by
  intro ivs
  induction ivs with
  | nil =>
    intro pos e h x
    simp only [consecFrom, Option.some.injEq] at h
    subst h
    simp only [List.not_mem_nil, false_and, exists_false, iff_false]
    omega
  | cons iv0 rest ih =>
    intro pos e h x
    obtain ⟨s, l⟩ := iv0
    simp only [consecFrom] at h
    split at h
    · rename_i hs
      subst hs
      have hle := consecFrom_le rest (s + l) e h
      have hih := ih (s + l) e h x
      constructor
      · rintro ⟨hx1, hx2⟩
        by_cases hcut : x < s + l
        · exact ⟨(s, l), List.mem_cons_self _ _, by simp; omega⟩
        · obtain ⟨iv, hiv, hx⟩ := hih.1 ⟨by omega, hx2⟩
          exact ⟨iv, List.mem_cons_of_mem _ hiv, hx⟩
      · rintro ⟨iv, hiv, hx1, hx2⟩
        rcases List.mem_cons.1 hiv with rfl | hiv2
        · simp only at hx1 hx2
          omega
        · have := hih.2 ⟨iv, hiv2, hx1, hx2⟩
          omega
    · exact absurd h (by simp)

theorem prefix_sum_lt_sum (l : List Nat) (hl : ∀ x ∈ l, 1 ≤ x)
    (k : Nat) (hk : k < l.length) : (l.take k).sum + 1 ≤ l.sum := by
  have hsplit := List.sum_take_add_sum_drop l k
  rcases hd : l.drop k with - | ⟨a, t⟩
  · have := congrArg List.length hd
    rw [List.length_drop] at this
    simp only [List.length_nil] at this
    omega
  · have ha : a ∈ l := by
      have : a ∈ l.drop k := by
        rw [hd]
        simp
      exact List.mem_of_mem_drop this
    have h1 := hl a ha
    have hsum : (l.drop k).sum = a + t.sum := by
      rw [hd]
      simp
    omega

theorem planLoop_spec (ps factor flen : Nat) (isLast : Bool) (lastIdx : Nat) :
    ∀ (ts : List (Nat × Nat)) (po v1pos v2pos leftM : Nat),
    (∀ t ∈ ts, 1 ≤ t.2) →
    leftM ≤ (ts.map Prod.snd).sum * factor →
    (∀ k, k < ts.length → ((ts.map Prod.snd).take k).sum * factor < leftM) →
    ∃ js, planLoop ps factor flen isLast lastIdx ts po v1pos v2pos leftM = some js ∧
      js.map PlanJob.v1_pieces = ts.map Prod.snd ∧
      (js.map PlanJob.v2_pieces).sum = leftM ∧
      (∀ k, (hk : k < js.length) → (js.get ⟨k, hk⟩).v2_pieces =
        min ((js.get ⟨k, hk⟩).v1_pieces * factor)
          (leftM - ((js.map PlanJob.v2_pieces).take k).sum)) ∧
      consecFrom v1pos (js.map (fun j => (j.v1_slice_start, j.v1_pieces * 20))) =
        some (v1pos + (ts.map Prod.snd).sum * 20) ∧
      consecFrom v2pos (js.map (fun j => (j.v2_slice_start, j.v2_pieces * 32))) =
        some (v2pos + leftM * 32) := by
  intro ts
  induction ts with
  | nil =>
    intro po v1pos v2pos leftM h1 hub hpre
    have hM : leftM = 0 := by
      simp only [List.map_nil, List.sum_nil, Nat.zero_mul] at hub
      omega
    subst hM
    refine ⟨[], rfl, rfl, rfl, ?_, ?_, ?_⟩
    · intro k hk
      simp at hk
    · simp [consecFrom]
    · simp [consecFrom]
  | cons t rest ih =>
    intro po v1pos v2pos leftM h1 hub hpre
    obtain ⟨idx, t2⟩ := t
    have hM0 : 0 < leftM := by
      have := hpre 0 (by simp)
      simpa using this
    have ht2 : 1 ≤ t2 := h1 (idx, t2) (by simp)
    have hexp : ((idx, t2) :: rest).map Prod.snd = t2 :: rest.map Prod.snd := rfl
    have hsum_exp : (((idx, t2) :: rest).map Prod.snd).sum =
        t2 + (rest.map Prod.snd).sum := by
      rw [hexp, List.sum_cons]
    have hmul : (t2 + (rest.map Prod.snd).sum) * factor =
        t2 * factor + (rest.map Prod.snd).sum * factor := Nat.add_mul _ _ _
    have hub2 : leftM ≤ t2 * factor + (rest.map Prod.snd).sum * factor := by
      rw [hsum_exp, hmul] at hub
      exact hub
    have hVle : min (t2 * factor) leftM ≤ leftM := Nat.min_le_right _ _
    have hub' : leftM - min (t2 * factor) leftM ≤
        (rest.map Prod.snd).sum * factor := by
      rcases Nat.le_total (t2 * factor) leftM with hc | hc
      · rw [Nat.min_eq_left hc]
        omega
      · rw [Nat.min_eq_right hc]
        omega
    have hpre' : ∀ k, k < rest.length →
        ((rest.map Prod.snd).take k).sum * factor <
          leftM - min (t2 * factor) leftM := by
      intro k hk
      have h2 := hpre (k + 1) (by simp only [List.length_cons]; omega)
      rw [hexp] at h2
      rw [List.take_succ_cons, List.sum_cons, Nat.add_mul] at h2
      have hlt : t2 * factor < leftM := by
        have h3 := hpre 1 (by simp only [List.length_cons]; omega)
        rw [hexp, List.take_succ_cons, List.take_zero, List.sum_cons,
          List.sum_nil] at h3
        simpa using h3
      rw [Nat.min_eq_left (le_of_lt hlt)]
      omega
    obtain ⟨js', heq', hmapv1, hsumv2, hminf, hcv1, hcv2⟩ :=
      ih (po + t2) (v1pos + t2 * 20) (v2pos + min (t2 * factor) leftM * 32)
        (leftM - min (t2 * factor) leftM)
        (fun g hg => h1 g (List.mem_cons_of_mem _ hg)) hub' hpre'
    refine ⟨PlanJob.mk (po * ps) (min ((po + t2) * ps) flen - po * ps)
        t2 ps v1pos (!(decide (idx = lastIdx) && isLast))
        (min (t2 * factor) leftM) v2pos :: js', ?_, ?_, ?_, ?_, ?_, ?_⟩
    · simp only [planLoop]
      rw [if_neg (by omega)]
      rw [heq']
    · simp only [List.map_cons, hmapv1, hexp]
    · show min (t2 * factor) leftM + (List.map PlanJob.v2_pieces js').sum = leftM
      rw [hsumv2]
      omega
    · intro k hk
      match k with
      | 0 =>
        simp only [List.get, List.map_cons, List.take_zero, List.sum_nil,
          Nat.sub_zero]
      | k + 1 =>
        have hk2 : k < js'.length := by
          simp only [List.length_cons] at hk
          omega
        have hget : (PlanJob.mk (po * ps) (min ((po + t2) * ps) flen - po * ps)
            t2 ps v1pos (!(decide (idx = lastIdx) && isLast))
            (min (t2 * factor) leftM) v2pos :: js').get ⟨k + 1, hk⟩ =
            js'.get ⟨k, hk2⟩ := rfl
        rw [hget, hminf k hk2]
        congr 1
        simp only [List.map_cons, List.take_succ_cons, List.sum_cons]
        omega
    · show (if v1pos = v1pos then
          consecFrom (v1pos + t2 * 20)
            (List.map (fun j => (j.v1_slice_start, j.v1_pieces * 20)) js')
        else none) = some (v1pos + (((idx, t2) :: rest).map Prod.snd).sum * 20)
      rw [if_pos rfl, hcv1, hsum_exp]
      congr 1
      ring
    · show (if v2pos = v2pos then
          consecFrom (v2pos + min (t2 * factor) leftM * 32)
            (List.map (fun j => (j.v2_slice_start, j.v2_pieces * 32)) js')
        else none) = some (v2pos + leftM * 32)
      rw [if_pos rfl, hcv2]
      congr 1
      have := Nat.min_le_right (t2 * factor) leftM
      have hdist : (leftM - min (t2 * factor) leftM) * 32 =
          leftM * 32 - min (t2 * factor) leftM * 32 := Nat.sub_mul _ _ _
      omega

/-- C7: for a file of positive length the planner creates
`ceil(len / 1 GiB)` jobs; v1 pieces are distributed as `taskPieces`
prescribes (the first `v1count mod numJobs` jobs one piece more); each
job's `v2_pieces` is the min of `v1_pieces * piece_factor` and the leaves
still unassigned; per-file the v1/v2 piece counts sum to the file's
`hash_v1_piece_count` and `merkle_piece_count`; and the assigned front
slices (`v1_pieces * 20` / `v2_pieces * 32` bytes) tile the two hash
buffers consecutively from 0 — hence are pairwise disjoint and cover them
exactly. -/
theorem c7_job_planner_spec (ps factor flen : Nat) (isLast : Bool)
    (hflen : 0 < flen) (hfac : 0 < factor) (hps : ps = 16384 * factor)
    (hmax : ps ≤ 2 * 1024 * 1024) :
    ∃ js, planFile ps factor flen isLast = some js ∧
      js.length = (flen - 1) / (1024 * 1024 * 1024) + 1 ∧
      js.map PlanJob.v1_pieces =
        taskPieces ((flen - 1) / ps + 1) ((flen - 1) / (1024 * 1024 * 1024) + 1) ∧
      (js.map PlanJob.v1_pieces).sum = (flen - 1) / ps + 1 ∧
      (js.map PlanJob.v2_pieces).sum = (flen - 1) / (16 * 1024) + 1 ∧
      (∀ k, (hk : k < js.length) → (js.get ⟨k, hk⟩).v2_pieces =
        min ((js.get ⟨k, hk⟩).v1_pieces * factor)
          (((flen - 1) / (16 * 1024) + 1) -
            ((js.map PlanJob.v2_pieces).take k).sum)) ∧
      consecFrom 0 (js.map (fun j => (j.v1_slice_start, j.v1_pieces * 20))) =
        some (((flen - 1) / ps + 1) * 20) ∧
      consecFrom 0 (js.map (fun j => (j.v2_slice_start, j.v2_pieces * 32))) =
        some (((flen - 1) / (16 * 1024) + 1) * 32) ∧
      (js.map (fun j => (j.v1_slice_start, j.v1_pieces * 20))).Pairwise
        (fun a b => a.1 + a.2 ≤ b.1) ∧
      (js.map (fun j => (j.v2_slice_start, j.v2_pieces * 32))).Pairwise
        (fun a b => a.1 + a.2 ≤ b.1) ∧
      (∀ x, x < ((flen - 1) / ps + 1) * 20 ↔
        ∃ j ∈ js, j.v1_slice_start ≤ x ∧ x < j.v1_slice_start + j.v1_pieces * 20) ∧
      (∀ x, x < ((flen - 1) / (16 * 1024) + 1) * 32 ↔
        ∃ j ∈ js, j.v2_slice_start ≤ x ∧
          x < j.v2_slice_start + j.v2_pieces * 32) := by
  have hps0 : 0 < ps := by
    rw [hps]
    positivity
  have hcap : ps ≤ 1024 * 1024 * 1024 := by omega
  have hnt0 : 0 < (flen - 1) / (1024 * 1024 * 1024) + 1 := Nat.succ_pos _
  have hle : (flen - 1) / (1024 * 1024 * 1024) + 1 ≤ (flen - 1) / ps + 1 := by
    have h : (flen - 1) / (1024 * 1024 * 1024) ≤ (flen - 1) / ps :=
      Nat.div_le_div_left hcap hps0
    omega
  have hq1 : 1 ≤ ((flen - 1) / ps + 1) / ((flen - 1) / (1024 * 1024 * 1024) + 1) :=
    (Nat.one_le_div_iff hnt0).2 hle
  have hdam := Nat.div_add_mod ((flen - 1) / ps + 1)
    ((flen - 1) / (1024 * 1024 * 1024) + 1)
  have hmlt : ((flen - 1) / ps + 1) % ((flen - 1) / (1024 * 1024 * 1024) + 1) <
      (flen - 1) / (1024 * 1024 * 1024) + 1 := Nat.mod_lt _ hnt0
  have htplen : (taskPieces ((flen - 1) / ps + 1)
      ((flen - 1) / (1024 * 1024 * 1024) + 1)).length =
      (flen - 1) / (1024 * 1024 * 1024) + 1 := by
    simp only [taskPieces, List.length_append, List.length_replicate]
    omega
  have htpsum : (taskPieces ((flen - 1) / ps + 1)
      ((flen - 1) / (1024 * 1024 * 1024) + 1)).sum = (flen - 1) / ps + 1 := by
    simp only [taskPieces, List.sum_append, List.sum_replicate, smul_eq_mul]
    rw [Nat.mul_add, Nat.mul_one, Nat.sub_mul]
    have hmul_le : ((flen - 1) / ps + 1) % ((flen - 1) / (1024 * 1024 * 1024) + 1) *
        (((flen - 1) / ps + 1) / ((flen - 1) / (1024 * 1024 * 1024) + 1)) ≤
        ((flen - 1) / (1024 * 1024 * 1024) + 1) *
        (((flen - 1) / ps + 1) / ((flen - 1) / (1024 * 1024 * 1024) + 1)) :=
      Nat.mul_le_mul_right _ (le_of_lt hmlt)
    have hcomm : (((flen - 1) / ps + 1) / ((flen - 1) / (1024 * 1024 * 1024) + 1)) *
        ((flen - 1) / (1024 * 1024 * 1024) + 1) =
        ((flen - 1) / (1024 * 1024 * 1024) + 1) *
        (((flen - 1) / ps + 1) / ((flen - 1) / (1024 * 1024 * 1024) + 1)) :=
      Nat.mul_comm _ _
    omega
  have htpmem : ∀ x ∈ taskPieces ((flen - 1) / ps + 1)
      ((flen - 1) / (1024 * 1024 * 1024) + 1), 1 ≤ x := by
    intro x hx
    simp only [taskPieces, List.mem_append] at hx
    rcases hx with hx | hx
    · have h := List.eq_of_mem_replicate hx
      omega
    · have h := List.eq_of_mem_replicate hx
      omega
  have hdd : (flen - 1) / (16 * 1024) / factor = (flen - 1) / ps := by
    rw [Nat.div_div_eq_div_mul, ← hps]
  have hdam2 := Nat.div_add_mod ((flen - 1) / (16 * 1024)) factor
  have hmlt2 : (flen - 1) / (16 * 1024) % factor < factor := Nat.mod_lt _ hfac
  have hP : (flen - 1) / (16 * 1024) / factor * factor =
      (flen - 1) / ps * factor := by rw [hdd]
  have hcomm2 : (flen - 1) / (16 * 1024) / factor * factor =
      factor * ((flen - 1) / (16 * 1024) / factor) := Nat.mul_comm _ _
  have hm_le : (flen - 1) / (16 * 1024) + 1 ≤ ((flen - 1) / ps + 1) * factor := by
    rw [Nat.add_mul, Nat.one_mul, ← hdd]
    omega
  have hm_gt : ((flen - 1) / ps) * factor < (flen - 1) / (16 * 1024) + 1 := by
    rw [← hdd]
    omega
  have hpre : ∀ k, k < (flen - 1) / (1024 * 1024 * 1024) + 1 →
      ((taskPieces ((flen - 1) / ps + 1)
        ((flen - 1) / (1024 * 1024 * 1024) + 1)).take k).sum * factor <
        (flen - 1) / (16 * 1024) + 1 := by
    intro k hk
    have hpref := prefix_sum_lt_sum _ htpmem k (by rw [htplen]; omega)
    rw [htpsum] at hpref
    have : ((taskPieces ((flen - 1) / ps + 1)
        ((flen - 1) / (1024 * 1024 * 1024) + 1)).take k).sum ≤ (flen - 1) / ps := by
      omega
    have hmono := Nat.mul_le_mul_right factor this
    omega
  obtain ⟨js, heq, hmapv1, hsumv2, hminf, hcv1, hcv2⟩ :=
    planLoop_spec ps factor flen isLast
      ((taskPieces ((flen - 1) / ps + 1)
        ((flen - 1) / (1024 * 1024 * 1024) + 1)).length - 1)
      (taskPieces ((flen - 1) / ps + 1)
        ((flen - 1) / (1024 * 1024 * 1024) + 1)).enum 0 0 0
      ((flen - 1) / (16 * 1024) + 1)
      (by
        intro t ht
        apply htpmem
        have := List.mem_map_of_mem Prod.snd ht
        rwa [List.enum_map_snd] at this)
      (by rw [List.enum_map_snd, htpsum]; exact hm_le)
      (by
        intro k hk
        rw [List.enum_map_snd]
        rw [List.enum_length, htplen] at hk
        exact hpre k hk)
  rw [List.enum_map_snd] at hmapv1 hcv1
  have hjslen : js.length = (flen - 1) / (1024 * 1024 * 1024) + 1 := by
    have := congrArg List.length hmapv1
    rw [List.length_map, htplen] at this
    exact this
  refine ⟨js, ?_, hjslen, by rw [hmapv1], ?_, hsumv2, hminf, ?_, ?_, ?_, ?_, ?_, ?_⟩
  · exact heq
  · rw [hmapv1, htpsum]
  · rw [hcv1, htpsum]
    simp
  · rw [hcv2]
    simp
  · exact consecFrom_pairwise _ _ _ hcv1
  · exact consecFrom_pairwise _ _ _ hcv2
  · intro x
    have hcov := consecFrom_cover _ _ _ hcv1 x
    rw [htpsum] at hcov
    simp only [Nat.zero_add, Nat.zero_le, true_and] at hcov
    rw [hcov]
    constructor
    · rintro ⟨iv, hiv, hx⟩
      obtain ⟨j, hj, rfl⟩ := List.mem_map.1 hiv
      exact ⟨j, hj, hx⟩
    · rintro ⟨j, hj, hx⟩
      exact ⟨_, List.mem_map_of_mem _ hj, hx⟩
  · intro x
    have hcov := consecFrom_cover _ _ _ hcv2 x
    simp only [Nat.zero_add, Nat.zero_le, true_and] at hcov
    rw [hcov]
    constructor
    · rintro ⟨iv, hiv, hx⟩
      obtain ⟨j, hj, rfl⟩ := List.mem_map.1 hiv
      exact ⟨j, hj, hx⟩
    · rintro ⟨j, hj, hx⟩
      exact ⟨_, List.mem_map_of_mem _ hj, hx⟩

/-- Witness for C7: a 40 KiB file at piece size 16 KiB (factor 1). -/
theorem c7_job_planner_witness :
    ∃ js, planFile 16384 1 40960 true = some js ∧
      js.length = (40960 - 1) / (1024 * 1024 * 1024) + 1 ∧
      js.map PlanJob.v1_pieces =
        taskPieces ((40960 - 1) / 16384 + 1) ((40960 - 1) / (1024 * 1024 * 1024) + 1) ∧
      (js.map PlanJob.v1_pieces).sum = (40960 - 1) / 16384 + 1 ∧
      (js.map PlanJob.v2_pieces).sum = (40960 - 1) / (16 * 1024) + 1 ∧
      (∀ k, (hk : k < js.length) → (js.get ⟨k, hk⟩).v2_pieces =
        min ((js.get ⟨k, hk⟩).v1_pieces * 1)
          (((40960 - 1) / (16 * 1024) + 1) -
            ((js.map PlanJob.v2_pieces).take k).sum)) ∧
      consecFrom 0 (js.map (fun j => (j.v1_slice_start, j.v1_pieces * 20))) =
        some (((40960 - 1) / 16384 + 1) * 20) ∧
      consecFrom 0 (js.map (fun j => (j.v2_slice_start, j.v2_pieces * 32))) =
        some (((40960 - 1) / (16 * 1024) + 1) * 32) ∧
      (js.map (fun j => (j.v1_slice_start, j.v1_pieces * 20))).Pairwise
        (fun a b => a.1 + a.2 ≤ b.1) ∧
      (js.map (fun j => (j.v2_slice_start, j.v2_pieces * 32))).Pairwise
        (fun a b => a.1 + a.2 ≤ b.1) ∧
      (∀ x, x < ((40960 - 1) / 16384 + 1) * 20 ↔
        ∃ j ∈ js, j.v1_slice_start ≤ x ∧ x < j.v1_slice_start + j.v1_pieces * 20) ∧
      (∀ x, x < ((40960 - 1) / (16 * 1024) + 1) * 32 ↔
        ∃ j ∈ js, j.v2_slice_start ≤ x ∧
          x < j.v2_slice_start + j.v2_pieces * 32) :=
  c7_job_planner_spec 16384 1 40960 true (by decide) (by decide)
    (by decide) (by decide)

theorem dslice_self (data : List Nat) (a : Nat) : dslice data a a = [] := by
  simp [dslice]

theorem dslice_append (data : List Nat) (a b c : Nat) (hab : a ≤ b)
    (hbc : b ≤ c) : dslice data a b ++ dslice data b c = dslice data a c := by
  simp only [dslice]
  rw [show c - a = (b - a) + (c - b) by omega, List.take_add]
  congr 1
  congr 1
  rw [List.drop_drop]
  congr 1
  omega

theorem dslice_length (data : List Nat) (a b : Nat) (hab : a ≤ b)
    (hb : b ≤ data.length) : (dslice data a b).length = b - a := by
  simp only [dslice, List.length_take, List.length_drop]
  omega

theorem workerLoop_done (pf : Nat) (data : List Nat) (D cursor : Nat)
    (v1ctx v2ctx : List Nat) (v1acc v2acc : List (List Nat)) (f1 f2 : Nat)
    (h : D ≤ cursor) :
    workerLoop pf data D cursor v1ctx v2ctx v1acc v2acc f1 f2 =
      (cursor, v1ctx, v2ctx, v1acc, v2acc, f1, f2) := by
  rw [workerLoop]
  rw [dif_neg (by omega)]

theorem workerLoop_inv (pf : Nat) (data : List Nat) (offset D : Nat) :
    ∀ n, ∀ (k : Nat) (v1acc v2acc : List (List Nat)),
    D - (offset + 16384 * k) ≤ 16384 * n →
    offset + 16384 * k ≤ D →
    ∃ v2c v2a,
      workerLoop pf data D (offset + 16384 * k)
        (dslice data (offset + 16384 * (pf * (k / pf))) (offset + 16384 * k)) []
        v1acc v2acc (k / pf) k =
      (D,
       dslice data
         (offset + 16384 * (pf * ((k + (D - (offset + 16384 * k)) / 16384) / pf)))
         D,
       v2c,
       v1acc ++ (List.range' (k / pf)
         ((k + (D - (offset + 16384 * k)) / 16384) / pf - k / pf)).map
         (fun j => dslice data (offset + 16384 * (pf * j))
           (offset + 16384 * (pf * (j + 1)))),
       v2a,
       (k + (D - (offset + 16384 * k)) / 16384) / pf,
       k + (D - (offset + 16384 * k)) / 16384) := by
  intro n
  induction n with
  | zero =>
    intro k v1acc v2acc h1 h2
    have hc : offset + 16384 * k = D := by omega
    refine ⟨[], v2acc, ?_⟩
    rw [workerLoop_done pf data D _ _ _ _ _ _ _ (by omega), hc, Nat.sub_self]
    simp only [Nat.zero_div, Nat.add_zero, Nat.sub_self, List.range'_zero,
      List.map_nil, List.append_nil]
  | succ n ih =>
    intro k v1acc v2acc h1 h2
    by_cases hcd : offset + 16384 * k < D
    · by_cases hshort : D < offset + 16384 * k + 16384
      · -- final short chunk: added to both contexts, then the loop stops
        refine ⟨[] ++ (data.drop (offset + 16384 * k)).take
          (D - (offset + 16384 * k)), v2acc, ?_⟩
        have hd0 : (D - (offset + 16384 * k)) / 16384 = 0 := by omega
        have hmdk : pf * (k / pf) ≤ k := by
          rw [Nat.mul_comm]
          exact Nat.div_mul_le_self k pf
        have hmerge : dslice data (offset + 16384 * (pf * (k / pf)))
            (offset + 16384 * k) ++ dslice data (offset + 16384 * k) D =
            dslice data (offset + 16384 * (pf * (k / pf))) D :=
          dslice_append data _ _ _ (by omega) (by omega)
        rw [workerLoop, dif_pos hcd, if_pos hshort,
          workerLoop_done pf data D _ _ _ _ _ _ _ (by omega), hd0]
        simp only [Nat.add_zero, Nat.sub_self, List.range'_zero, List.map_nil,
          List.append_nil]
        rw [show (data.drop (offset + 16384 * k)).take (D - (offset + 16384 * k))
          = dslice data (offset + 16384 * k) D from rfl, hmerge,
          show offset + 16384 * k + (D - (offset + 16384 * k)) = D from by omega]
      · -- full 16 KiB chunk
        have hfull : offset + 16384 * k + 16384 ≤ D := by omega
        have hkE : k + 1 + (D - (offset + 16384 * (k + 1))) / 16384 =
            k + (D - (offset + 16384 * k)) / 16384 := by omega
        have hcur : offset + 16384 * k + 16384 = offset + 16384 * (k + 1) := by
          ring
        have hchunk : (data.drop (offset + 16384 * k)).take 16384 =
            dslice data (offset + 16384 * k) (offset + 16384 * (k + 1)) := by
          simp only [dslice]
          congr 1
          omega
        have hmdk : pf * (k / pf) ≤ k := by
          rw [Nat.mul_comm]
          exact Nat.div_mul_le_self k pf
        have h1' : D - (offset + 16384 * (k + 1)) ≤ 16384 * n := by omega
        have h2' : offset + 16384 * (k + 1) ≤ D := by omega
        by_cases hmod : (k + 1) % pf = 0
        · -- chunk count hits a multiple of pf: a v1 digest is finished
          have hdvd : pf ∣ k + 1 := Nat.dvd_iff_mod_eq_zero.mpr hmod
          have hsd : (k + 1) / pf = k / pf + 1 := by
            rw [Nat.succ_div, if_pos hdvd]
          have hc1 : pf * ((k + 1) / pf) = k + 1 := Nat.mul_div_cancel' hdvd
          obtain ⟨v2c, v2a, hIH⟩ := ih (k + 1)
            (v1acc ++ [dslice data (offset + 16384 * (pf * (k / pf)))
              (offset + 16384 * k) ++ (data.drop (offset + 16384 * k)).take 16384])
            (v2acc ++ [[] ++ (data.drop (offset + 16384 * k)).take 16384])
            h1' h2'
          have hds0 : dslice data (offset + 16384 * (pf * ((k + 1) / pf)))
              (offset + 16384 * (k + 1)) = ([] : List Nat) := by
            rw [hc1]
            exact dslice_self data _
          rw [hds0, hkE, hsd] at hIH
          have hk1le : k / pf + 1 ≤
              (k + (D - (offset + 16384 * k)) / 16384) / pf := by
            rw [← hsd]
            exact Nat.div_le_div_right (by omega)
          have hlist : v1acc ++ [dslice data (offset + 16384 * (pf * (k / pf)))
              (offset + 16384 * k) ++
              (data.drop (offset + 16384 * k)).take 16384] ++
              (List.range' (k / pf + 1)
                ((k + (D - (offset + 16384 * k)) / 16384) / pf -
                  (k / pf + 1))).map
                (fun j => dslice data (offset + 16384 * (pf * j))
                  (offset + 16384 * (pf * (j + 1)))) =
              v1acc ++ (List.range' (k / pf)
                ((k + (D - (offset + 16384 * k)) / 16384) / pf - k / pf)).map
                (fun j => dslice data (offset + 16384 * (pf * j))
                  (offset + 16384 * (pf * (j + 1)))) := by
            rw [List.append_assoc]
            congr 1
            rw [show (k + (D - (offset + 16384 * k)) / 16384) / pf - k / pf =
              (k + (D - (offset + 16384 * k)) / 16384) / pf - (k / pf + 1) + 1
              from by omega]
            rw [List.range'_succ]
            simp only [List.map_cons, List.singleton_append]
            congr 1
            rw [hchunk, show pf * (k / pf + 1) = k + 1 from by
              rw [← hsd]; exact hc1]
            exact dslice_append data _ _ _ (by omega) (by omega)
          rw [hlist] at hIH
          refine ⟨v2c, v2a, ?_⟩
          rw [workerLoop, dif_pos hcd, if_neg hshort, if_pos hmod, hcur, hIH]
        · -- v1 context carries over to the next chunk
          have hnd : ¬ pf ∣ k + 1 := fun hd =>
            hmod (Nat.dvd_iff_mod_eq_zero.mp hd)
          have hsd : (k + 1) / pf = k / pf := by
            rw [Nat.succ_div, if_neg hnd]
            omega
          obtain ⟨v2c, v2a, hIH⟩ := ih (k + 1) v1acc
            (v2acc ++ [[] ++ (data.drop (offset + 16384 * k)).take 16384])
            h1' h2'
          rw [hkE, hsd, hchunk] at hIH
          have hmerge : dslice data (offset + 16384 * (pf * (k / pf)))
              (offset + 16384 * k) ++
              dslice data (offset + 16384 * k) (offset + 16384 * (k + 1)) =
              dslice data (offset + 16384 * (pf * (k / pf)))
                (offset + 16384 * (k + 1)) :=
            dslice_append data _ _ _ (by omega) (by omega)
          refine ⟨v2c, v2a, ?_⟩
          rw [workerLoop, dif_pos hcd, if_neg hshort, if_neg hmod, hchunk,
            hmerge, hcur, hIH]
    · -- the loop does not run at all: cursor already at the bound
      have hc : offset + 16384 * k = D := by omega
      refine ⟨[], v2acc, ?_⟩
      rw [workerLoop_done pf data D _ _ _ _ _ _ _ (by omega), hc, Nat.sub_self]
      simp only [Nat.zero_div, Nat.add_zero, Nat.sub_self, List.range'_zero,
        List.map_nil, List.append_nil]

/-- C4 (src/torrent_meta_v2.rs lines 388-405): for a job whose data does
not reach `v1_pieces * v1_piece_size` (short final v1 piece), the worker
emits exactly `v1_pieces` v1 digests, and the byte sequence fed to the
final SHA-1 is the real tail bytes followed — exactly when
`v1_last_hash_zero_fill` is set — by zero bytes filling the piece up to
`v1_piece_size`; with the flag clear the final digest covers the real
bytes only, with no zero padding. -/
theorem c4_worker_last_v1_zero_fill (pf : Nat) (data : List Nat)
    (job : PlanJob) (hpf : 0 < pf) (hps : job.v1_piece_size = 16384 * pf)
    (hvp : 0 < job.v1_pieces)
    (hlow : (job.v1_pieces - 1) * job.v1_piece_size < job.data_len)
    (hhigh : job.data_len < job.v1_pieces * job.v1_piece_size)
    (hdata : job.offset + job.data_len ≤ data.length) :
    (workerRun pf data job).1.length = job.v1_pieces ∧
    (workerRun pf data job).1.getLast? = some
      (if job.v1_last_hash_zero_fill then
        dslice data (job.offset + (job.v1_pieces - 1) * job.v1_piece_size)
          (job.offset + job.data_len) ++
        List.replicate (job.v1_pieces * job.v1_piece_size - job.data_len) 0
      else
        dslice data (job.offset + (job.v1_pieces - 1) * job.v1_piece_size)
          (job.offset + job.data_len)) ∧
    (job.v1_last_hash_zero_fill = true →
      (dslice data (job.offset + (job.v1_pieces - 1) * job.v1_piece_size)
          (job.offset + job.data_len) ++
        List.replicate (job.v1_pieces * job.v1_piece_size - job.data_len)
          0).length = job.v1_piece_size) := by
  obtain ⟨v2c, v2a, hInv⟩ := workerLoop_inv pf data job.offset
    (job.offset + job.data_len) job.data_len 0 [] [] (by omega) (by omega)
  simp only [Nat.mul_zero, Nat.add_zero, Nat.zero_div, Nat.zero_add,
    Nat.sub_zero, Nat.add_sub_cancel_left, dslice_self, List.nil_append]
    at hInv
  have hdd2 : job.data_len / 16384 / pf = job.data_len / job.v1_piece_size := by
    rw [Nat.div_div_eq_div_mul, ← hps]
  have hV1 : job.data_len / job.v1_piece_size = job.v1_pieces - 1 := by
    apply Nat.div_eq_of_lt_le
    · omega
    · rw [show job.v1_pieces - 1 + 1 = job.v1_pieces from by omega]
      exact hhigh
  have harr : 16384 * (pf * (job.v1_pieces - 1)) =
      (job.v1_pieces - 1) * job.v1_piece_size := by
    rw [hps]
    ring
  rw [hdd2, hV1, harr] at hInv
  have hA : (job.v1_pieces - 1) * job.v1_piece_size =
      job.v1_pieces * job.v1_piece_size - 1 * job.v1_piece_size :=
    Nat.sub_mul _ _ _
  have hB : job.v1_piece_size ≤ job.v1_pieces * job.v1_piece_size :=
    Nat.le_mul_of_pos_left job.v1_piece_size hvp
  have hDneH : job.offset + job.data_len ≠
      job.offset + job.v1_pieces * job.v1_piece_size := by omega
  have hrun1 : (workerRun pf data job).1 =
      (List.range' 0 (job.v1_pieces - 1)).map
        (fun j => dslice data (job.offset + 16384 * (pf * j))
          (job.offset + 16384 * (pf * (j + 1)))) ++
      [if job.v1_last_hash_zero_fill then
          dslice data (job.offset + (job.v1_pieces - 1) * job.v1_piece_size)
            (job.offset + job.data_len) ++
          List.replicate (job.offset + job.v1_pieces * job.v1_piece_size -
            (job.offset + job.data_len)) 0
        else
          dslice data (job.offset + (job.v1_pieces - 1) * job.v1_piece_size)
            (job.offset + job.data_len)] := by
    simp only [workerRun]
    rw [hInv]
    simp only [ne_eq]
    rw [if_pos hDneH]
  refine ⟨?_, ?_, ?_⟩
  · rw [hrun1]
    simp only [List.length_append, List.length_map, List.length_range',
      List.length_cons, List.length_nil]
    omega
  · rw [hrun1, List.getLast?_concat, Nat.add_sub_add_left]
  · intro hflag
    rw [List.length_append, List.length_replicate,
      dslice_length data _ _ (by omega) (by omega)]
    omega

/-- Witness for C4: a job covering 17 bytes of a 17-byte input at piece
size 16 KiB (`piece_factor` 1) with the zero-fill flag set. -/
theorem c4_worker_last_v1_zero_fill_witness :
    (0 : Nat) < 1 ∧
    ((workerRun 1 (List.replicate 17 0)
        (PlanJob.mk 0 17 1 16384 0 true 2 0)).1.length = 1 ∧
    (workerRun 1 (List.replicate 17 0)
        (PlanJob.mk 0 17 1 16384 0 true 2 0)).1.getLast? = some
        (dslice (List.replicate 17 0) 0 17 ++ List.replicate (16384 - 17) 0) ∧
    (true = true →
      (dslice (List.replicate 17 0) 0 17 ++
        List.replicate (16384 - 17) 0).length = 16384)) :=
  ⟨by decide,
    c4_worker_last_v1_zero_fill 1 (List.replicate 17 0)
      (PlanJob.mk 0 17 1 16384 0 true 2 0) (by decide) (by decide) (by decide)
      (by decide) (by decide) (by decide)⟩

end Mktorrent
